import Mathlib

/-!
Verification development for the fetch-and-cache core of a git-based
input-resolution layer (sources: `src/libfetchers/git.cc` and
`src/libfetchers/input-accessor.cc`).

The development is a shallow embedding: the C++ data model and control flow
are translated into executable Lean definitions (external effects — the git
subprocess, the network, the filesystem, the content-addressed store — are
abstracted as oracle fields of an environment record, and each operation the
code would perform is recorded as an explicit event in a trace).  Theorems
about the embedding settle the specification claims.

Conventions used throughout:
* C++ `std::string` is modelled as Lean `String`; operations that the Lean
  core library implements in ways that do not reduce well (ordering,
  splitting, prefix tests) are re-implemented over the underlying character
  list, with byte-wise semantics matching the C++ originals on ASCII data.
* machine integers (`time_t`, `uint64_t`, TTLs) are modelled as `Nat`; the
  code performs no arithmetic that can overflow or go negative on the
  modelled paths.
* fallible C++ code (functions that `throw`) returns `Except`.
-/

namespace NixFetch

/-! ## String and path utilities

The C++ sources manipulate slash-separated path strings through
`canonPath`, `hasPrefix`, `isDirOrInDir` and `std::string` comparison.
These are re-implemented here over `String.data` so that every definition
is executable and kernel-reducible. -/

/-- Byte-wise character comparison, matching C++ `char` comparison on the
ASCII data the sources handle. -/
def charLt (a b : Char) : Bool := decide (a < b)

/-- Lexicographic comparison of character lists: the semantics of
`std::string::operator<` used by `std::set<Path>::lower_bound`. -/
def strLtL : List Char → List Char → Bool
  | [], [] => false
  | [], _ :: _ => true
  | _ :: _, [] => false
  | a :: as, b :: bs =>
    if charLt a b then true
    else if charLt b a then false
    else strLtL as bs

/-- Lexicographic comparison of strings (C++ `operator<` on `std::string`). -/
def strLt (a b : String) : Bool := strLtL a.data b.data

/-- `hasPrefix(s, p)` from the C++ utility library: does `p` occur as a
prefix of `s`? -/
def strStarts (s p : String) : Bool := p.data.isPrefixOf s.data

/-- Split a character list on `'/'`, keeping empty components (the behaviour
of iterating slash-separated components in `canonPath`). -/
def splitSlashL : List Char → List (List Char)
  | [] => [[]]
  | c :: rest =>
    let r := splitSlashL rest
    if c = '/' then [] :: r
    else
      match r with
      | [] => [[c]]
      | comp :: comps => (c :: comp) :: comps

/-- Split a path string into its slash-separated components. -/
def splitSlash (s : String) : List String :=
  (splitSlashL s.data).map String.mk

/-- Lexical component resolution performed by `canonPath`: empty and `"."`
components are dropped, `".."` erases the previous component (and is a no-op
at the root). -/
def canonComps (comps : List String) : List String :=
  comps.foldl
    (fun acc c =>
      if c = "" ∨ c = "." then acc
      else if c = ".." then acc.dropLast
      else acc ++ [c])
    []

/-- `canonPath` from the C++ utility library (without symlink resolution):
lexically canonicalize an absolute path; the empty result denotes `"/"`. -/
def canonPath (s : String) : String :=
  match canonComps (splitSlash s) with
  | [] => "/"
  | comps => comps.foldl (fun acc c => acc ++ "/" ++ c) ""

/-- `isInDir(path, dir)`: `path` lies strictly below `dir`
(`hasPrefix(path, dir + "/")`). -/
def isInDir (path dir : String) : Bool := strStarts path (dir ++ "/")

/-- `isDirOrInDir(path, dir)`: `path` equals `dir` or lies strictly below
it. -/
def isDirOrInDir (path dir : String) : Bool :=
  path == dir || isInDir path dir

/-! ## The accessor layer (`input-accessor.cc`)

Common result types for the tree-accessor variants. -/

/-- The `Type` enumeration of `InputAccessor::Stat`. -/
inductive FSType where
  | tRegular
  | tDirectory
  | tSymlink
  | tMisc
deriving DecidableEq

/-- `InputAccessor::Stat`. -/
structure FSStat where
  type : FSType
  isExecutable : Bool
deriving DecidableEq

/-- Errors signalled by the accessor layer.  The C++ code throws `Error`
with distinct messages; the distinct conditions are modelled as distinct
constructors. -/
inductive AccErr where
  | accessDenied
  | notFound
  | unimplemented
  | unsupportedFileType
deriving DecidableEq

/-! ### The filesystem-backed accessor (`FSInputAccessor`) -/

/-- `FSInputAccessor`'s configuration: a root directory and an optional
allow-list of root-relative paths.  The C++ `std::optional<PathSet>` (an
ordered `std::set<Path>`) is modelled as an optional ascending list of
strings. -/
structure FSAccessor where
  root : String
  allowedPaths : Option (List String)

/-- The real filesystem underneath an `FSInputAccessor`, abstracted as
oracles keyed by absolute path (the accessor only ever reads it). -/
structure RawFS where
  pathExistsFn : String → Bool
  contentsFn : String → String
  statFn : String → FSStat
  entriesFn : String → List (String × Option FSType)
  linkTargetFn : String → String

/-- `FSInputAccessor::makeAbsPath`: canonicalize `root + path` (the request
path always begins with `"/"`). -/
def makeAbsPath (a : FSAccessor) (path : String) : String :=
  canonPath (a.root ++ path)

/-- `std::set::lower_bound` over the ascending allow-list: the first entry
not less than `x` in `std::string` order. -/
def setLowerBound (l : List String) (x : String) : Option String :=
  l.find? (fun e => ! strLt e x)

/-- The `subPath` computation of `FSInputAccessor::isAllowed`: strip the
root prefix from the absolute path (`absPath.substr(root.size())`), then a
leading slash if present. -/
def relSub (root absPath : String) : String :=
  let sub0 := String.mk (absPath.data.drop root.data.length)
  if strStarts sub0 "/" then String.mk (sub0.data.drop 1) else sub0

/-- `FSInputAccessor::isAllowed`: the requested absolute path must resolve
inside the root and, when an allow-list is configured and the path is not
the root itself, the `lower_bound` allow-list entry must exist and be equal
to or nested under the root-relative request path. -/
def isAllowed (a : FSAccessor) (absPath : String) : Bool :=
  if isDirOrInDir absPath a.root = false then false
  else
    match a.allowedPaths with
    | none => true
    | some allowed =>
      let sub := relSub a.root absPath
      if sub = "" then true
      else
        match setLowerBound allowed sub with
        | none => false
        | some lb => isDirOrInDir ("/" ++ lb) ("/" ++ sub)

/-- `FSInputAccessor::checkAllowed`: throw `AccessDenied` for a disallowed
path. -/
def checkAllowed (a : FSAccessor) (absPath : String) : Except AccErr Unit :=
  if isAllowed a absPath then .ok () else .error .accessDenied

/-- `FSInputAccessor::readFile` (the debug print is ignored). -/
def fsReadFile (a : FSAccessor) (fs : RawFS) (path : String) :
    Except AccErr String :=
  (checkAllowed a (makeAbsPath a path)).map
    (fun _ => fs.contentsFn (makeAbsPath a path))

/-- `FSInputAccessor::pathExists`: no allowed-check throw — a disallowed
path simply does not exist. -/
def fsPathExists (a : FSAccessor) (fs : RawFS) (path : String) : Bool :=
  isAllowed a (makeAbsPath a path) && fs.pathExistsFn (makeAbsPath a path)

/-- `FSInputAccessor::lstat` (the conversion from `st_mode` to `Stat` is
absorbed into the `statFn` oracle). -/
def fsLstat (a : FSAccessor) (fs : RawFS) (path : String) :
    Except AccErr FSStat :=
  (checkAllowed a (makeAbsPath a path)).map
    (fun _ => fs.statFn (makeAbsPath a path))

/-- `FSInputAccessor::readDirectory`: entries whose own absolute path is
disallowed are filtered out of the listing. -/
def fsReadDirectory (a : FSAccessor) (fs : RawFS) (path : String) :
    Except AccErr (List (String × Option FSType)) :=
  (checkAllowed a (makeAbsPath a path)).map
    (fun _ =>
      (fs.entriesFn (makeAbsPath a path)).filter
        (fun e => isAllowed a (makeAbsPath a path ++ "/" ++ e.1)))

/-- `FSInputAccessor::readLink`. -/
def fsReadLink (a : FSAccessor) (fs : RawFS) (path : String) :
    Except AccErr String :=
  (checkAllowed a (makeAbsPath a path)).map
    (fun _ => fs.linkTargetFn (makeAbsPath a path))

/-! ### The archive-backed accessor (`ZipInputAccessor`), `lstat` only -/

/-- `ZIP_OPSYS_UNIX`. -/
def zipOpsysUnix : Nat := 3

/-- The per-member data `ZipInputAccessor::lstat` consults: the creator
operating system and the 32-bit external attributes word. -/
structure ZipEntry where
  opsys : Nat
  attributes : Nat
deriving DecidableEq

/-- The archive accessor's pre-built index: member name (as keyed from the
first slash of the stored name) to member metadata. -/
structure ZipAccessor where
  members : List (String × ZipEntry)
deriving DecidableEq

/-- `members.find(...)` on the index. -/
def zipFindMember (z : ZipAccessor) (p : String) : Option ZipEntry :=
  (z.members.find? (fun e => e.1 = p)).map (fun e => e.2)

/-- `ZipInputAccessor::lstat`.  Note: in the C++ source the statement
`auto type = (attributes >> 16) & 0770000;` inside `case ZIP_OPSYS_UNIX:`
declares a new local variable that shadows the outer `Type type`; the
assignments in the inner `switch` therefore write to the shadowed local,
and the `Stat` returned at the end carries the *outer* `type`, which holds
`tRegular` (or `tDirectory` when the member was found via the trailing-slash
lookup).  The model reproduces this faithfully: `outerType` below is what is
returned, the interpreted attribute type only selects the branch. -/
def zipLstat (z : ZipAccessor) (p : String) : Except AccErr FSStat :=
  let path := canonPath p
  let found : Option (ZipEntry × FSType) :=
    match zipFindMember z path with
    | some e => some (e, FSType.tRegular)
    | none =>
      match zipFindMember z (path ++ "/") with
      | some e => some (e, FSType.tDirectory)
      | none => none
  match found with
  | none => .error .notFound
  | some (e, outerType) =>
    if e.opsys = zipOpsysUnix then
      let innerType := (e.attributes >>> 16) &&& 0o770000
      if innerType = 0o040000 then .ok ⟨outerType, false⟩
      else if innerType = 0o100000 then
        .ok ⟨outerType, decide (((e.attributes >>> 16) &&& 0o100) ≠ 0)⟩
      else if innerType = 0o120000 then .ok ⟨outerType, false⟩
      else .error .unsupportedFileType
    else .ok ⟨outerType, false⟩

/-! ### The tree serializer (`InputAccessor::dumpPath`)

The serializer walks a tree through the accessor interface (`lstat`,
`readDirectory`, `readFile`, `readLink`).  The tree it observes is modelled
directly as an inductive value; a directory node carries its entries in the
raw order in which the underlying filesystem iterates them.  Paths handed
to the `include` predicate are built in the source as `path + "/" + name`;
they are modelled as component lists, `path ++ [name]`, with the first
argument of the dump being the components of the root path argument. -/

/-- A node of the tree the serializer observes.  `misc` stands for any file
type outside {regular, directory, symlink}. -/
inductive FSNode where
  | regular (contents : String) (executable : Bool)
  | symlink (target : String)
  | directory (entries : List (String × FSNode))
  | misc

/-- One abstract token written to the serialization sink: `str` for
`sink << string` (length-prefixed, padded), `num` for `sink << uint64`,
`raw` for the raw file contents write, `pad` for `writePadding`. -/
inductive SinkTok where
  | str (s : String)
  | num (n : Nat)
  | raw (s : String)
  | pad (n : Nat)
deriving DecidableEq

/-- Error thrown by the serializer on an unsupported file type. -/
inductive DumpErr where
  | unsupportedFileType
deriving DecidableEq

/-- Ordered insertion into a `std::map`-style association list sorted by
`strLt` on the keys; `emplace` semantics: an existing key is left
untouched. -/
def stdMapInsert :
    List (String × FSNode) → String → FSNode → List (String × FSNode)
  | [], k, v => [(k, v)]
  | (k', v') :: rest, k, v =>
    if strLt k k' then (k, v) :: (k', v') :: rest
    else if k = k' then (k', v') :: rest
    else (k', v') :: stdMapInsert rest k v

/-- The `unhacked` map of `dumpPath`: the raw directory listing is collected
into a name-ordered map before any entry is emitted.  (The case-hack branch
of the source is compiled out — the condition is the constant `false` — so
each entry maps a name to the node under that same name, and a duplicate
name would be silently ignored by `emplace`.  This same map structure also
models the `DirEntries` map that `readDirectory` itself returns.) -/
def toUnhacked (entries : List (String × FSNode)) : List (String × FSNode) :=
  entries.foldl (fun m p => stdMapInsert m p.1 p.2) []

theorem sizeOf_stdMapInsert (m : List (String × FSNode)) (k : String)
    (v : FSNode) : sizeOf (stdMapInsert m k v) ≤ sizeOf m + 1 + sizeOf (k, v) := by
  induction m with
  | nil => simp [stdMapInsert]; omega
  | cons a r ih =>
    obtain ⟨a1, a2⟩ := a
    simp only [stdMapInsert]
    split
    · simp; omega
    · split
      · simp; omega
      · have h := ih
        simp at h ⊢
        omega

theorem sizeOf_toUnhacked (l : List (String × FSNode)) :
    sizeOf (toUnhacked l) ≤ sizeOf l := by
  suffices h : ∀ (l acc : List (String × FSNode)),
      sizeOf (l.foldl (fun m p => stdMapInsert m p.1 p.2) acc) + 1 ≤
        sizeOf acc + sizeOf l by
    have := h l []
    simp [toUnhacked] at this ⊢
    omega
  intro l
  induction l with
  | nil => intro acc; simp
  | cons a r ih =>
    intro acc
    simp only [List.foldl_cons]
    have h1 := ih (stdMapInsert acc a.1 a.2)
    have h2 := sizeOf_stdMapInsert acc a.1 a.2
    simp at h1 h2 ⊢
    omega

/-- Tokens of `dumpContents`: size, raw bytes, padding. -/
def dumpContents (s : String) : List SinkTok :=
  [.str "contents", .num s.data.length, .raw s, .pad s.data.length]

mutual

/-- The recursive `dump` lambda of `InputAccessor::dumpPath`, instrumented:
the first component is the token stream produced (or the error thrown), the
second is the ordered list of paths the `include` predicate was invoked
with.  On an error the partially written stream is discarded but the
predicate calls made before the throw are retained. -/
def dumpT (f : List String → Bool) (path : List String) :
    FSNode → Except DumpErr (List SinkTok) × List (List String)
  | .regular s x =>
    (.ok ([.str "(", .str "type", .str "regular"] ++
      (if x then [.str "executable", .str ""] else []) ++
      dumpContents s ++ [.str ")"]), [])
  | .symlink t =>
    (.ok [.str "(", .str "type", .str "symlink", .str "target", .str t,
      .str ")"], [])
  | .directory entries =>
    match dumpEntriesT f path (toUnhacked entries) with
    | (.error e, calls) => (.error e, calls)
    | (.ok toks, calls) =>
      (.ok ([.str "(", .str "type", .str "directory"] ++ toks ++ [.str ")"]),
        calls)
  | .misc => (.error .unsupportedFileType, [])
termination_by n => sizeOf n
decreasing_by
  have := sizeOf_toUnhacked entries
  simp
  omega

/-- The entry loop of the directory case: each (already name-ordered) entry
is offered to the predicate; an included entry is emitted as an
`entry ( name .. node .. )` group and recursed into, an excluded entry is
skipped entirely. -/
def dumpEntriesT (f : List String → Bool) (path : List String) :
    List (String × FSNode) → Except DumpErr (List SinkTok) × List (List String)
  | [] => (.ok [], [])
  | (n, node) :: rest =>
    if f (path ++ [n]) then
      match dumpT f (path ++ [n]) node with
      | (.error e, calls) => (.error e, (path ++ [n]) :: calls)
      | (.ok inner, calls) =>
        match dumpEntriesT f path rest with
        | (r, calls2) =>
          (r.map (fun restToks =>
            [.str "entry", .str "(", .str "name", .str n, .str "node"] ++
              inner ++ [.str ")"] ++ restToks),
            (path ++ [n]) :: (calls ++ calls2))
    else
      match dumpEntriesT f path rest with
      | (r, calls2) => (r, (path ++ [n]) :: calls2)
termination_by l => sizeOf l
decreasing_by
  all_goals simp
  all_goals omega

end

/-- The NAR magic header written before the root node. -/
def narVersionMagic1 : String := "nix-archive-1"

/-- `InputAccessor::dumpPath`: magic header followed by the root dump. -/
def dumpPath (f : List String → Bool) (path : List String) (node : FSNode) :
    Except DumpErr (List SinkTok) :=
  ((dumpT f path node).1).map (fun toks => .str narVersionMagic1 :: toks)

/-- The ordered list of paths `dumpPath` hands to the include predicate. -/
def dumpCalls (f : List String → Bool) (path : List String) (node : FSNode) :
    List (List String) :=
  (dumpT f path node).2

/-- Well-formedness of an observed tree: within any directory, the raw
listing never repeats a name (true of every real directory iteration, and
forced at the `DirEntries` interface type, which is a name-keyed map). -/
inductive WFNames : FSNode → Prop where
  | regular (s : String) (x : Bool) : WFNames (.regular s x)
  | symlink (t : String) : WFNames (.symlink t)
  | misc : WFNames .misc
  | directory {l : List (String × FSNode)}
      (hnd : (l.map Prod.fst).Nodup)
      (hsub : ∀ p ∈ l, WFNames p.2) :
      WFNames (.directory l)

/-- Two trees have the same contents up to the order in which each
directory's entries are iterated. -/
inductive TreeEquiv : FSNode → FSNode → Prop where
  | regular (s : String) (x : Bool) :
      TreeEquiv (.regular s x) (.regular s x)
  | symlink (t : String) : TreeEquiv (.symlink t) (.symlink t)
  | misc : TreeEquiv .misc .misc
  | directory {l₁ l₂ mid : List (String × FSNode)}
      (hp : l₁.Perm mid)
      (hk : mid.map Prod.fst = l₂.map Prod.fst)
      (hv : List.Forall₂ TreeEquiv (mid.map Prod.snd) (l₂.map Prod.snd)) :
      TreeEquiv (.directory l₁) (.directory l₂)

/-! ## The git fetcher (`git.cc`, `GitInputScheme::fetch`)

The fetch routine is embedded as a pure function over
* an `Input` (the recognized attributes of the request),
* a `GitEnv` of oracles standing for the external collaborators (clock,
  settings, git subprocess results, network outcome, content-addressed
  store), and
* a `FetchState` holding the mutable world the routine reads and writes
  (the two cache tiers and the local mirror).

It returns the result (or thrown error), the updated state, and the ordered
trace of external operations performed. -/

/-- A store path (`ContentIdentifier`): opaque handle, modelled as a
string. -/
abbrev StorePath := String

/-- The parsed URL of the input, as consumed by `getRepoInfo` (parsing
itself is out of scope; the fields used are the scheme, the filesystem path
and the base form). -/
structure Url where
  scheme : String
  path : String
  base : String
deriving DecidableEq

/-- The recognized attributes of a git input (`Input.attrs`).  `name`
carries `input.getName()` (defaulted to `"source"` by the caller);
`lastModified?`/`revCount?` model those attributes of the result. -/
structure Input where
  url : Url
  ref? : Option String
  rev? : Option String
  shallow : Bool
  submodules : Bool
  allRefs : Bool
  name : String
  lastModified? : Option Nat := none
  revCount? : Option Nat := none
deriving DecidableEq

/-- `GitInputScheme::RepoInfo`. -/
structure RepoInfo where
  shallow : Bool
  submodules : Bool
  allRefs : Bool
  cacheType : String
  isLocal : Bool
  isDirty : Bool
  hasCommits : Bool
  url : String
deriving DecidableEq

/-- The immutable cache key, `getImmutableAttrs()`: the attribute map
`{type = cacheType, name, rev}`. -/
structure ImmKey where
  cacheType : String
  name : String
  rev : String
deriving DecidableEq

/-- The mutable cache key, `mutableAttrs`: the attribute map
`{type = cacheType, name, url, ref}`. -/
structure MutKey where
  cacheType : String
  name : String
  url : String
  ref : String
deriving DecidableEq

/-- The value attributes (`infoAttrs`) stored with a cache entry:
`rev`, `lastModified` and (for non-shallow fetches) `revCount`. -/
structure InfoAttrs where
  rev : String
  lastModified : Nat
  revCount? : Option Nat
deriving DecidableEq

/-- Modelled from the spec: the persistent ResultCache (`cache.cc` is not
among the sources).  Two key shapes share one store: immutable entries
(keyed by exact revision) are valid forever; mutable entries (keyed by
url/ref) are valid only while `now − storedAt < ttl`.  Newer entries
shadow older ones. -/
structure CacheStore where
  imm : List (ImmKey × InfoAttrs × StorePath)
  mutb : List (MutKey × Nat × InfoAttrs × StorePath)
deriving DecidableEq

/-- Modelled from the spec: immutable lookup — pure key lookup, no
expiry. -/
def lookupImm (c : CacheStore) (k : ImmKey) : Option (InfoAttrs × StorePath) :=
  (c.imm.find? (fun e => e.1 == k)).map (fun e => e.2)

/-- Modelled from the spec: immutable insert. -/
def addImm (c : CacheStore) (k : ImmKey) (info : InfoAttrs) (sp : StorePath) :
    CacheStore :=
  { c with imm := (k, info, sp) :: c.imm }

/-- Modelled from the spec: mutable lookup — a hit only while
`now − storedAt < ttl`. -/
def lookupMut (now ttl : Nat) (c : CacheStore) (k : MutKey) :
    Option (InfoAttrs × StorePath) :=
  match c.mutb.find? (fun e => e.1 == k) with
  | some (_, storedAt, info, sp) =>
    if now - storedAt < ttl then some (info, sp) else none
  | none => none

/-- Modelled from the spec: mutable insert, stamped with the current
time. -/
def addMut (c : CacheStore) (k : MutKey) (now : Nat) (info : InfoAttrs)
    (sp : StorePath) : CacheStore :=
  { c with mutb := (k, now, info, sp) :: c.mutb }

/-- The state of the local bare mirror for the (url, ref) at hand:
whether the cache directory exists, and the local ref marker file
(`localRefFile`) as `(recorded revision, mtime)` when present. -/
structure MirrorState where
  cacheDirExists : Bool
  refFile : Option (String × Nat)
deriving DecidableEq

/-- The mutable world `fetch` interacts with. -/
structure FetchState where
  cache : CacheStore
  mirror : MirrorState
deriving DecidableEq

/-- The distinct fatal failures `fetch` can throw on the modelled paths. -/
inductive FetchErr where
  | dirtyTreeRejected
  | fetchFailed
  | refFileMissing
  | shallowMismatch
  | revisionNotFound
  | missingRevCount
deriving DecidableEq

/-- One external operation performed by `fetch`, in program order.
`git*` events are subprocess invocations of the version-control tool;
`gitFetch` is the only network operation; `probeDotGit`, `readHeadsDir`,
`statRefFile`, `utimesRefFile`, `readRefFile`, `ingestDirty` and `ingest`
touch the filesystem; `warn*` are log warnings; `cacheAdd*` are cache-tier
writes. -/
inductive Event where
  | probeDotGit
  | gitRevParseCommonDir
  | readHeadsDir
  | gitDiffIndex
  | warnDirtyTree
  | gitLsFiles
  | ingestDirty
  | gitLogHead
  | gitReadHead
  | gitRevParseRef
  | gitInit
  | gitCatFileE
  | statRefFile
  | gitFetch
  | warnStale
  | utimesRefFile
  | readRefFile
  | gitIsShallow
  | gitCatFileCommit
  | gitSubmoduleOps
  | gitArchive
  | ingest
  | gitLog
  | gitRevList
  | cacheAddMut
  | cacheAddImm
deriving DecidableEq

/-- Network operations. -/
def Event.isNetwork : Event → Bool
  | .gitFetch => true
  | _ => false

/-- Invocations of the external version-control tool. -/
def Event.isTool : Event → Bool
  | .gitRevParseCommonDir | .gitDiffIndex | .gitLsFiles | .gitLogHead
  | .gitReadHead | .gitRevParseRef | .gitInit | .gitCatFileE | .gitFetch
  | .gitIsShallow | .gitCatFileCommit | .gitSubmoduleOps | .gitArchive
  | .gitLog | .gitRevList => true
  | _ => false

/-- Direct filesystem operations. -/
def Event.isFilesystem : Event → Bool
  | .probeDotGit | .readHeadsDir | .statRefFile | .utimesRefFile
  | .readRefFile | .ingestDirty | .ingest => true
  | _ => false

/-- The oracles standing for everything outside the fetch routine: process
settings, the clock, git subprocess results, the network outcome, and the
content-addressed store. -/
structure GitEnv where
  now : Nat
  tarballTtl : Nat
  allowDirty : Bool
  warnDirty : Bool
  forceHttp : Bool
  dotGitExists : Bool
  headsNonEmpty : Bool
  diffIndexEmpty : Bool
  localHead : String
  localRevParse : String → String
  revInMirror : String → Bool
  fetchOutcome : Option String
  isShallowRepo : Bool
  commitExists : String → Bool
  dirtyStorePath : StorePath
  headLastModified : Nat
  storePathOf : String → String → StorePath
  lastModifiedOf : String → Nat
  revCountOf : String → Nat

/-- `GitInputScheme::getRepoInfo`.  The flag attributes default to `false`;
`cacheType` is the base tag plus mode suffixes; a `file` URL is probed for
`<path>/.git` (the only filesystem access before any cache lookup) to
distinguish a local working copy from a bare repository; for a local
working copy addressed without ref or rev, dirtiness is probed via the
tool (`rev-parse --git-common-dir`, a read of `refs/heads`, and
`diff-index` when there are commits). -/
def getRepoInfo (env : GitEnv) (inp : Input) : RepoInfo × List Event :=
  let cacheType :=
    "git" ++ (if inp.shallow then "-shallow" else "") ++
      (if inp.submodules then "-submodules" else "") ++
      (if inp.allRefs then "-all-refs" else "")
  let isBare : Bool := inp.url.scheme == "file" && !env.dotGitExists
  let isLocal : Bool := inp.url.scheme == "file" && !env.forceHttp && !isBare
  -- the guard of the dirty-probing block (`!ref && !rev && isLocal`);
  -- outside that block `isDirty` stays `false` and `hasCommits` stays `true`
  let probe : Bool := inp.ref?.isNone && inp.rev?.isNone && isLocal
  ({ shallow := inp.shallow, submodules := inp.submodules,
     allRefs := inp.allRefs, cacheType := cacheType, isLocal := isLocal,
     isDirty := probe && !(env.headsNonEmpty && env.diffIndexEmpty),
     hasCommits := !probe || env.headsNonEmpty,
     url := if isLocal then inp.url.path else inp.url.base },
    (if inp.url.scheme == "file" then [.probeDotGit] else []) ++
      (if probe then
        [.gitRevParseCommonDir, .readHeadsDir] ++
          (if env.headsNonEmpty then [.gitDiffIndex] else [])
      else []))

/-- The `makeResult` lambda of `fetch`: merge the stored/computed info
attributes into the input — `revCount` only for a non-shallow fetch
(`getIntAttr` throws if the stored entry lacks it), `lastModified`
always. -/
def makeResult (ri : RepoInfo) (inp : Input) (info : InfoAttrs)
    (sp : StorePath) : Except FetchErr (StorePath × Input) :=
  if ri.shallow then
    .ok (sp, { inp with lastModified? := some info.lastModified })
  else
    match info.revCount? with
    | none => .error .missingRevCount
    | some n =>
      .ok (sp,
        { inp with
          revCount? := some n
          lastModified? := some info.lastModified })

/-- The tail of `fetch` once a concrete revision `rev` is in hand (`inp`
already carries it): check the shallow invariant, retry the immutable
lookup, verify the revision exists on the ref (`cat-file commit`), extract
(submodule checkout or archive export), ingest, record the mutable entry
only when the original request carried no rev (`!_input.getRev()`), record
the immutable entry always, and build the result. -/
def finishFetch (env : GitEnv) (origRev? : Option String) (ri : RepoInfo)
    (mutKey : MutKey) (inp : Input) (rev : String) (st : FetchState) :
    Except FetchErr (StorePath × Input) × FetchState × List Event :=
  if env.isShallowRepo && !ri.shallow then
    (.error .shallowMismatch, st, [.gitIsShallow])
  else
    match lookupImm st.cache ⟨ri.cacheType, inp.name, rev⟩ with
    | some (info, sp) => (makeResult ri inp info sp, st, [.gitIsShallow])
    | none =>
      if !env.commitExists rev then
        (.error .revisionNotFound, st, [.gitIsShallow, .gitCatFileCommit])
      else
        let evExtract : List Event :=
          if ri.submodules then [.gitSubmoduleOps] else [.gitArchive]
        let sp := env.storePathOf inp.name rev
        let info : InfoAttrs :=
          ⟨rev, env.lastModifiedOf rev,
            if ri.shallow then none else some (env.revCountOf rev)⟩
        let evRC : List Event := if ri.shallow then [] else [.gitRevList]
        let cache1 :=
          if origRev?.isNone then addMut st.cache mutKey env.now info sp
          else st.cache
        let evMut : List Event := if origRev?.isNone then [.cacheAddMut] else []
        let cache2 := addImm cache1 ⟨ri.cacheType, inp.name, rev⟩ info sp
        (makeResult ri inp info sp, { st with cache := cache2 },
          [.gitIsShallow, .gitCatFileCommit] ++ evExtract ++
            [.ingest, .gitLog] ++ evRC ++ evMut ++ [.cacheAddImm])

/-- After the mirror work: if no rev was pinned, read the revision recorded
behind the local ref marker (`readFile(localRefFile)` — its absence is a
fatal read failure), then proceed to the common tail. -/
def mirrorTail (env : GitEnv) (origRev? : Option String) (ri : RepoInfo)
    (mutKey : MutKey) (inp : Input) (st : FetchState) (mir : MirrorState)
    (evs : List Event) :
    Except FetchErr (StorePath × Input) × FetchState × List Event :=
  match inp.rev? with
  | some rev =>
    let r := finishFetch env origRev? ri mutKey inp rev
      { st with mirror := mir }
    (r.1, r.2.1, evs ++ r.2.2)
  | none =>
    match mir.refFile with
    | none =>
      (.error .refFileMissing, { st with mirror := mir },
        evs ++ [.readRefFile])
    | some (c, _) =>
      let r := finishFetch env origRev? ri mutKey
        { inp with rev? := some c } c { st with mirror := mir }
      (r.1, r.2.1, evs ++ [.readRefFile] ++ r.2.2)

/-- The forced-refresh step: run `git fetch`.  On success the local ref
marker now records the upstream revision; on failure the error is fatal if
no previously written marker exists, otherwise it is downgraded to a
warning and the stale marker stands.  In every non-fatal outcome `utimes`
then stamps the marker with the attempt time. -/
def doFetchStep (env : GitEnv) (origRev? : Option String) (ri : RepoInfo)
    (mutKey : MutKey) (inp : Input) (st : FetchState) (mir0 : MirrorState)
    (evs : List Event) :
    Except FetchErr (StorePath × Input) × FetchState × List Event :=
  match env.fetchOutcome with
  | some upstream =>
    mirrorTail env origRev? ri mutKey inp st
      { mir0 with refFile := some (upstream, env.now) }
      (evs ++ [.gitFetch, .utimesRefFile])
  | none =>
    match mir0.refFile with
    | none =>
      (.error .fetchFailed, { st with mirror := mir0 }, evs ++ [.gitFetch])
    | some (c, _) =>
      mirrorTail env origRev? ri mutKey inp st
        { mir0 with refFile := some (c, env.now) }
        (evs ++ [.gitFetch, .warnStale, .utimesRefFile])

/-- The remote-mirror block of `fetch`: create the bare cache directory if
missing (under the directory lock), then decide whether a refresh is
needed — for a pinned rev, exactly when the revision is not already in the
mirror (`cat-file -e`); otherwise always under `allRefs`, and else exactly
when the local ref marker is absent or its mtime is at least `tarball-ttl`
seconds old (`st.st_mtime + settings.tarballTtl <= now`). -/
def remoteMirror (env : GitEnv) (origRev? : Option String) (ri : RepoInfo)
    (mutKey : MutKey) (inp : Input) (st : FetchState) (evs0 : List Event) :
    Except FetchErr (StorePath × Input) × FetchState × List Event :=
  let evInit : List Event :=
    if st.mirror.cacheDirExists then [] else [.gitInit]
  let mir0 : MirrorState := { st.mirror with cacheDirExists := true }
  match inp.rev? with
  | some rev =>
    if env.revInMirror rev then
      mirrorTail env origRev? ri mutKey inp st mir0
        (evs0 ++ evInit ++ [.gitCatFileE])
    else
      doFetchStep env origRev? ri mutKey inp st mir0
        (evs0 ++ evInit ++ [.gitCatFileE])
  | none =>
    if ri.allRefs then
      doFetchStep env origRev? ri mutKey inp st mir0 (evs0 ++ evInit)
    else
      match mir0.refFile with
      | none =>
        doFetchStep env origRev? ri mutKey inp st mir0
          (evs0 ++ evInit ++ [.statRefFile])
      | some (_, mtime) =>
        if mtime + env.tarballTtl ≤ env.now then
          doFetchStep env origRev? ri mutKey inp st mir0
            (evs0 ++ evInit ++ [.statRefFile])
        else
          mirrorTail env origRev? ri mutKey inp st mir0
            (evs0 ++ evInit ++ [.statRefFile])

/-- `fetch` after the first immutable-cache check: the dirty-working-copy
terminal path; otherwise default the ref (local HEAD or `"master"`),
then either resolve the revision locally (`rev-parse`) or go through the
mutable cache and the remote mirror. -/
def fetchAfterImmCheck (env : GitEnv) (inp0 : Input) (ri : RepoInfo)
    (st : FetchState) :
    Except FetchErr (StorePath × Input) × FetchState × List Event :=
  if ri.isDirty then
    if !env.allowDirty then (.error .dirtyTreeRejected, st, [])
    else
      let evW : List Event := if env.warnDirty then [.warnDirtyTree] else []
      let lm := if ri.hasCommits then env.headLastModified else 0
      let evLM : List Event := if ri.hasCommits then [.gitLogHead] else []
      (.ok (env.dirtyStorePath, { inp0 with lastModified? := some lm }), st,
        evW ++ [.gitLsFiles, .ingestDirty] ++ evLM)
  else
    let refEv : List Event :=
      if inp0.ref?.isNone && ri.isLocal then [.gitReadHead] else []
    let ref : String :=
      match inp0.ref? with
      | some r => r
      | none => if ri.isLocal then env.localHead else "master"
    let inp1 : Input := { inp0 with ref? := some ref }
    let mutKey : MutKey := ⟨ri.cacheType, inp0.name, ri.url, ref⟩
    if ri.isLocal then
      match inp1.rev? with
      | some rev =>
        let r := finishFetch env inp0.rev? ri mutKey inp1 rev st
        (r.1, r.2.1, refEv ++ r.2.2)
      | none =>
        let rev := env.localRevParse ref
        let r := finishFetch env inp0.rev? ri mutKey
          { inp1 with rev? := some rev } rev st
        (r.1, r.2.1, refEv ++ [.gitRevParseRef] ++ r.2.2)
    else
      match lookupMut env.now env.tarballTtl st.cache mutKey with
      | some (info, sp) =>
        if inp1.rev?.isNone || inp1.rev? == some info.rev then
          (makeResult ri { inp1 with rev? := some info.rev } info sp, st,
            refEv)
        else
          remoteMirror env inp0.rev? ri mutKey inp1 st refEv
      | none => remoteMirror env inp0.rev? ri mutKey inp1 st refEv

/-- `GitInputScheme::fetch`: derive the repo info, and if a rev is pinned
try the immutable cache first — a hit returns at once; otherwise continue
with the main state machine. -/
def fetch (env : GitEnv) (inp0 : Input) (st0 : FetchState) :
    Except FetchErr (StorePath × Input) × FetchState × List Event :=
  let ri := (getRepoInfo env inp0).1
  let ev0 := (getRepoInfo env inp0).2
  match inp0.rev? with
  | some rev =>
    match lookupImm st0.cache ⟨ri.cacheType, inp0.name, rev⟩ with
    | some (info, sp) => (makeResult ri inp0 info sp, st0, ev0)
    | none =>
      let r := fetchAfterImmCheck env inp0 ri st0
      (r.1, r.2.1, ev0 ++ r.2.2)
  | none =>
    let r := fetchAfterImmCheck env inp0 ri st0
    (r.1, r.2.1, ev0 ++ r.2.2)

/-! ## Shared concrete fixtures for witnesses and counterexamples -/

/-- A trivial backing filesystem for accessor examples: every path exists,
every file is empty. -/
def sampleRawFS : RawFS :=
  { pathExistsFn := fun _ => true
    contentsFn := fun _ => ""
    statFn := fun _ => ⟨.tRegular, false⟩
    entriesFn := fun _ => []
    linkTargetFn := fun _ => "" }

/-! ## Claims about the accessor layer -/

/-- C9: the claim says `stat` on the archive accessor recovers the type
{directory, regular, symlink} from the Unix external-attribute bits, with
symlink members reported as symlinks.  The code is a slip: the inner
`switch` writes to a local `auto type` that shadows the outer `Type type`
(the assignments are otherwise dead), so a member whose attributes carry
the Unix symlink bits (`0120000 << 16`) is reported as a regular file.
This theorem evaluates the model at that failing input. -/
theorem claim_C9_zip_symlink_stat_bug :
    zipLstat ⟨[("/link", ⟨zipOpsysUnix, 0o120000 * 65536⟩)]⟩ "/link" =
      .ok ⟨FSType.tRegular, false⟩ ∧
    FSType.tRegular ≠ FSType.tSymlink :=
  ⟨rfl, by decide⟩

/-- C10: for every path that is disallowed (outside the root or outside the
configured allow-list), `pathExists` returns `false` without signalling any
error, while `readFile`, `lstat`, `readDirectory` and `readLink` raise
`AccessDenied` on the same path. -/
theorem claim_C10_pathExists_total (a : FSAccessor) (fs : RawFS) (p : String)
    (h : isAllowed a (makeAbsPath a p) = false) :
    fsPathExists a fs p = false ∧
    fsReadFile a fs p = .error .accessDenied ∧
    fsLstat a fs p = .error .accessDenied ∧
    fsReadDirectory a fs p = .error .accessDenied ∧
    fsReadLink a fs p = .error .accessDenied := by
  simp [fsPathExists, fsReadFile, fsLstat, fsReadDirectory, fsReadLink,
    checkAllowed, h, Except.map]

/-- Witness for C10 at a concrete input: a traversal escaping the root. -/
theorem claim_C10_witness :
    isAllowed ⟨"/R", none⟩ (makeAbsPath ⟨"/R", none⟩ "/../outside") = false ∧
    fsPathExists ⟨"/R", none⟩ sampleRawFS "/../outside" = false ∧
    fsReadFile ⟨"/R", none⟩ sampleRawFS "/../outside" = .error .accessDenied :=
  ⟨by decide,
    (claim_C10_pathExists_total ⟨"/R", none⟩ sampleRawFS "/../outside"
      (by decide)).1,
    (claim_C10_pathExists_total ⟨"/R", none⟩ sampleRawFS "/../outside"
      (by decide)).2.1⟩

/-- The allow-list membership test in the words of claim C2: a non-root
path is permitted only if it equals or is nested under some allow-list
entry.  (Written from the claim, for comparison against the code's
`isAllowed`.) -/
def specAllowMember (allowed : List String) (sub : String) : Bool :=
  allowed.any (fun e => sub == e || isInDir sub e)

/-- C2 counterexample: with root `/R` and allow-list `{"sub/x"}`, the code
*permits* `readFile("/sub")` although `"sub"` neither equals nor is nested
under any allow-list entry — the implemented test runs in the opposite
direction (the `lower_bound` entry must be equal to or nested under the
request), so ancestors of allowed entries are permitted. -/
theorem claim_C2_counterexample :
    fsReadFile ⟨"/R", some ["sub/x"]⟩ sampleRawFS "/sub" = .ok "" ∧
    relSub "/R" (makeAbsPath ⟨"/R", some ["sub/x"]⟩ "/sub") = "sub" ∧
    specAllowMember ["sub/x"] "sub" = false :=
  ⟨rfl, by decide, by decide⟩

/-- C2 (amended): every operation canonicalizes the request against the
root and any path resolving outside the root is rejected with
`AccessDenied`; when an allow-list is configured, a non-root path is
permitted exactly when it is inside the root and the least allow-list
entry lexicographically ≥ the root-relative path exists and equals or is
nested under that root-relative path (so allow-list entries themselves and
their lookup-visible ancestors are permitted; other paths, including strict
descendants of entries, are denied). -/
theorem claim_C2_amended_sandbox (a : FSAccessor) (fs : RawFS) (p : String) :
    (isDirOrInDir (makeAbsPath a p) a.root = false →
      isAllowed a (makeAbsPath a p) = false) ∧
    (isAllowed a (makeAbsPath a p) = false →
      fsReadFile a fs p = .error .accessDenied ∧
      fsLstat a fs p = .error .accessDenied ∧
      fsReadDirectory a fs p = .error .accessDenied ∧
      fsReadLink a fs p = .error .accessDenied) ∧
    (∀ allowed, a.allowedPaths = some allowed →
      relSub a.root (makeAbsPath a p) ≠ "" →
      (isAllowed a (makeAbsPath a p) = true ↔
        isDirOrInDir (makeAbsPath a p) a.root = true ∧
        ∃ lb, setLowerBound allowed (relSub a.root (makeAbsPath a p)) = some lb ∧
          isDirOrInDir ("/" ++ lb) ("/" ++ relSub a.root (makeAbsPath a p)) = true)) := by
  refine ⟨?_, ?_, ?_⟩
  · intro h
    simp [isAllowed, h]
  · intro h
    simp [fsReadFile, fsLstat, fsReadDirectory, fsReadLink, checkAllowed, h,
      Except.map]
  · intro allowed hal hsub
    simp only [isAllowed, hal]
    constructor
    · intro h
      by_cases hroot : isDirOrInDir (makeAbsPath a p) a.root = false
      · simp [hroot] at h
      · simp only [hroot, if_neg] at h
        refine ⟨by simpa using hroot, ?_⟩
        simp only [hsub, if_neg] at h
        match hlb : setLowerBound allowed (relSub a.root (makeAbsPath a p)) with
        | none => rw [hlb] at h; simp at h
        | some lb => rw [hlb] at h; simp at h; exact ⟨lb, rfl, h⟩
    · rintro ⟨hroot, lb, hlb, hdir⟩
      simp [hroot, hsub, hlb, hdir]

/-- Witness for C2 (amended) at a concrete input: under allow-list
`{"sub/x"}` the request `/sub/y` is inside the root, has a non-empty
root-relative path, and is denied (the lookup entry `sub/x` is not equal
to or nested under `sub/y`). -/
theorem claim_C2_witness :
    relSub "/R" (makeAbsPath ⟨"/R", some ["sub/x"]⟩ "/sub/y") ≠ "" ∧
    (isAllowed ⟨"/R", some ["sub/x"]⟩
        (makeAbsPath ⟨"/R", some ["sub/x"]⟩ "/sub/y") = true ↔
      isDirOrInDir (makeAbsPath ⟨"/R", some ["sub/x"]⟩ "/sub/y") "/R" = true ∧
      ∃ lb,
        setLowerBound ["sub/x"]
          (relSub "/R" (makeAbsPath ⟨"/R", some ["sub/x"]⟩ "/sub/y")) =
            some lb ∧
        isDirOrInDir ("/" ++ lb)
          ("/" ++ relSub "/R" (makeAbsPath ⟨"/R", some ["sub/x"]⟩ "/sub/y")) =
            true) :=
  ⟨by decide,
    (claim_C2_amended_sandbox ⟨"/R", some ["sub/x"]⟩ sampleRawFS
      "/sub/y").2.2 ["sub/x"] rfl (by decide)⟩

/-! ## Helper lemmas about the fetch embedding -/

theorem getRepoInfo_shallow (env : GitEnv) (inp : Input) :
    (getRepoInfo env inp).1.shallow = inp.shallow := rfl

theorem getRepoInfo_submodules (env : GitEnv) (inp : Input) :
    (getRepoInfo env inp).1.submodules = inp.submodules := rfl

theorem getRepoInfo_allRefs (env : GitEnv) (inp : Input) :
    (getRepoInfo env inp).1.allRefs = inp.allRefs := rfl

/-- The repo-info derivation only ever probes for `.git`, resolves the
common git dir, reads `refs/heads` and runs `diff-index`. -/
theorem getRepoInfo_events_sub (env : GitEnv) (inp : Input) (e : Event)
    (he : e ∈ (getRepoInfo env inp).2) :
    e = .probeDotGit ∨ e = .gitRevParseCommonDir ∨ e = .readHeadsDir ∨
      e = .gitDiffIndex := by
  unfold getRepoInfo at he
  split_ifs at he <;> simp_all <;> tauto

/-- With a pinned revision the repo-info derivation performs only the
`.git` probe (and that only for a `file` URL). -/
theorem getRepoInfo_events_rev_some (env : GitEnv) (inp : Input)
    (r : String) (hrev : inp.rev? = some r) :
    (getRepoInfo env inp).2 =
      if inp.url.scheme == "file" then [.probeDotGit] else [] := by
  unfold getRepoInfo
  simp [hrev]

theorem makeResult_rev (ri : RepoInfo) (inp : Input) (info : InfoAttrs)
    (sp : StorePath) (sp' : StorePath) (inp' : Input)
    (h : makeResult ri inp info sp = .ok (sp', inp')) :
    sp' = sp ∧ inp'.rev? = inp.rev? := by
  unfold makeResult at h
  split at h
  · cases h; exact ⟨rfl, rfl⟩
  · split at h
    · cases h
    · cases h; exact ⟨rfl, rfl⟩

theorem makeResult_error (ri : RepoInfo) (inp : Input) (info : InfoAttrs)
    (sp : StorePath) (e : FetchErr)
    (h : makeResult ri inp info sp = .error e) : e = .missingRevCount := by
  unfold makeResult at h
  split at h
  · cases h
  · split at h
    · cases h; rfl
    · cases h

theorem finishFetch_mirror (env : GitEnv) (o : Option String) (ri : RepoInfo)
    (mk : MutKey) (inp : Input) (rev : String) (st : FetchState) :
    (finishFetch env o ri mk inp rev st).2.1.mirror = st.mirror := by
  unfold finishFetch
  split
  · rfl
  · split
    · rfl
    · split <;> rfl

theorem finishFetch_error (env : GitEnv) (o : Option String) (ri : RepoInfo)
    (mk : MutKey) (inp : Input) (rev : String) (st : FetchState)
    (e : FetchErr) (h : (finishFetch env o ri mk inp rev st).1 = .error e) :
    e = .shallowMismatch ∨ e = .revisionNotFound ∨ e = .missingRevCount := by
  unfold finishFetch at h
  split at h
  · cases h; left; rfl
  · split at h
    · exact .inr (.inr (makeResult_error _ _ _ _ _ h))
    · split at h
      · cases h; right; left; rfl
      · exact .inr (.inr (makeResult_error _ _ _ _ _ h))

theorem finishFetch_rev (env : GitEnv) (o : Option String) (ri : RepoInfo)
    (mk : MutKey) (inp : Input) (rev : String) (st : FetchState)
    (sp' : StorePath) (inp' : Input)
    (h : (finishFetch env o ri mk inp rev st).1 = .ok (sp', inp')) :
    inp'.rev? = inp.rev? := by
  unfold finishFetch at h
  split at h
  · cases h
  · split at h
    · exact (makeResult_rev _ _ _ _ _ _ h).2
    · split at h
      · cases h
      · exact (makeResult_rev _ _ _ _ _ _ h).2

theorem mirrorTail_mirror (env : GitEnv) (o : Option String) (ri : RepoInfo)
    (mk : MutKey) (inp : Input) (st : FetchState) (mir : MirrorState)
    (evs : List Event) :
    (mirrorTail env o ri mk inp st mir evs).2.1.mirror = mir := by
  unfold mirrorTail
  split
  · simp [finishFetch_mirror]
  · split
    · rfl
    · simp [finishFetch_mirror]

theorem mirrorTail_events_mono (env : GitEnv) (o : Option String)
    (ri : RepoInfo) (mk : MutKey) (inp : Input) (st : FetchState)
    (mir : MirrorState) (evs : List Event) (e : Event) (he : e ∈ evs) :
    e ∈ (mirrorTail env o ri mk inp st mir evs).2.2 := by
  unfold mirrorTail
  split
  · simp [he]
  · split
    · simp [he]
    · simp [he]

theorem mirrorTail_ne_fetchFailed (env : GitEnv) (o : Option String)
    (ri : RepoInfo) (mk : MutKey) (inp : Input) (st : FetchState)
    (mir : MirrorState) (evs : List Event) :
    (mirrorTail env o ri mk inp st mir evs).1 ≠ .error .fetchFailed := by
  unfold mirrorTail
  split
  · intro h
    simp only at h
    rcases finishFetch_error _ _ _ _ _ _ _ _ h with h' | h' | h' <;> cases h'
  · split
    · intro h
      simp only at h
      cases h
    · intro h
      simp only at h
      rcases finishFetch_error _ _ _ _ _ _ _ _ h with h' | h' | h' <;> cases h'

/-- With a rev-less input, mirrorTail resolves the revision recorded behind
the marker file. -/
theorem mirrorTail_rev (env : GitEnv) (o : Option String) (ri : RepoInfo)
    (mk : MutKey) (inp : Input) (st : FetchState) (mir : MirrorState)
    (evs : List Event) (c : String) (m : Nat)
    (hrev : inp.rev? = none) (hrf : mir.refFile = some (c, m))
    (sp' : StorePath) (inp' : Input)
    (h : (mirrorTail env o ri mk inp st mir evs).1 = .ok (sp', inp')) :
    inp'.rev? = some c := by
  unfold mirrorTail at h
  rw [hrev] at h
  rw [hrf] at h
  simp only at h
  have := finishFetch_rev _ _ _ _ _ _ _ _ _ h
  simpa using this

/-- Under the standard remote hypotheses (no pinned rev, explicit ref,
remote non-dirty repo, mutable-cache miss) `fetch` is the remote-mirror
block prefixed by the repo-info events. -/
theorem fetch_remote_path (env : GitEnv) (inp : Input) (st : FetchState)
    (ref : String) (hrev : inp.rev? = none) (href : inp.ref? = some ref)
    (hlocal : (getRepoInfo env inp).1.isLocal = false)
    (hdirty : (getRepoInfo env inp).1.isDirty = false)
    (hmut : lookupMut env.now env.tarballTtl st.cache
      ⟨(getRepoInfo env inp).1.cacheType, inp.name,
        (getRepoInfo env inp).1.url, ref⟩ = none) :
    fetch env inp st =
      ((remoteMirror env none (getRepoInfo env inp).1
          ⟨(getRepoInfo env inp).1.cacheType, inp.name,
            (getRepoInfo env inp).1.url, ref⟩
          { inp with ref? := some ref } st []).1,
        (remoteMirror env none (getRepoInfo env inp).1
          ⟨(getRepoInfo env inp).1.cacheType, inp.name,
            (getRepoInfo env inp).1.url, ref⟩
          { inp with ref? := some ref } st []).2.1,
        (getRepoInfo env inp).2 ++
          (remoteMirror env none (getRepoInfo env inp).1
            ⟨(getRepoInfo env inp).1.cacheType, inp.name,
              (getRepoInfo env inp).1.url, ref⟩
            { inp with ref? := some ref } st []).2.2) := by
  simp only [fetch, hrev]
  simp only [fetchAfterImmCheck, hdirty, href, hlocal]
  simp [hrev, hmut]

/-- Events the tail stage can emit. -/
theorem finishFetch_events_sub (env : GitEnv) (o : Option String)
    (ri : RepoInfo) (mk : MutKey) (inp : Input) (rev : String)
    (st : FetchState) (e : Event)
    (he : e ∈ (finishFetch env o ri mk inp rev st).2.2) :
    e = .gitIsShallow ∨ e = .gitCatFileCommit ∨ e = .gitSubmoduleOps ∨
      e = .gitArchive ∨ e = .ingest ∨ e = .gitLog ∨ e = .gitRevList ∨
      e = .cacheAddMut ∨ e = .cacheAddImm := by
  unfold finishFetch at he
  split at he
  · simp_all
  · split at he
    · simp_all
    · split at he
      · simp_all
        tauto
      · split_ifs at he <;> simp_all <;> tauto

/-- Events the marker-resolution stage can emit beyond its prefix. -/
theorem mirrorTail_events_sub (env : GitEnv) (o : Option String)
    (ri : RepoInfo) (mk : MutKey) (inp : Input) (st : FetchState)
    (mir : MirrorState) (evs : List Event) (e : Event)
    (he : e ∈ (mirrorTail env o ri mk inp st mir evs).2.2) :
    e ∈ evs ∨ e = .readRefFile ∨ e = .gitIsShallow ∨ e = .gitCatFileCommit ∨
      e = .gitSubmoduleOps ∨ e = .gitArchive ∨ e = .ingest ∨ e = .gitLog ∨
      e = .gitRevList ∨ e = .cacheAddMut ∨ e = .cacheAddImm := by
  unfold mirrorTail at he
  split at he
  · simp only [List.mem_append] at he
    rcases he with he | he
    · exact .inl he
    · rcases finishFetch_events_sub _ _ _ _ _ _ _ _ he with
        h | h | h | h | h | h | h | h | h <;> simp [h]
  · split at he
    · simp at he
      rcases he with he | he
      · exact .inl he
      · simp [he]
    · simp only [List.mem_append] at he
      rcases he with (he | he) | he
      · exact .inl he
      · simp at he; simp [he]
      · rcases finishFetch_events_sub _ _ _ _ _ _ _ _ he with
          h | h | h | h | h | h | h | h | h <;> simp [h]

/-- The refresh stage always invokes `git fetch`. -/
theorem doFetchStep_gitFetch (env : GitEnv) (o : Option String)
    (ri : RepoInfo) (mk : MutKey) (inp : Input) (st : FetchState)
    (mir0 : MirrorState) (evs0 : List Event) :
    Event.gitFetch ∈ (doFetchStep env o ri mk inp st mir0 evs0).2.2 := by
  unfold doFetchStep
  split
  · exact mirrorTail_events_mono _ _ _ _ _ _ _ _ _ (by simp)
  · split
    · simp
    · exact mirrorTail_events_mono _ _ _ _ _ _ _ _ _ (by simp)

/-- An immutable entry just added is found by the immutable lookup. -/
theorem lookupImm_addImm (c : CacheStore) (k : ImmKey) (info : InfoAttrs)
    (sp : StorePath) : lookupImm (addImm c k info sp) k = some (info, sp) := by
  simp [lookupImm, addImm, List.find?]

/-- Under the remote hypotheses with `allRefs` unset and a fresh marker
(recorded revision `c`, mtime within the TTL window), `fetch` skips the
refresh entirely: its result and final state are those of the tail stage
run on the marker's revision, and every event beyond the tail stage's own
is bookkeeping (probe/stat/read), not a refresh. -/
theorem fetch_freshMarker_result (env : GitEnv) (inp : Input)
    (st : FetchState) (ref c : String) (m : Nat)
    (hrev : inp.rev? = none) (href : inp.ref? = some ref)
    (hlocal : (getRepoInfo env inp).1.isLocal = false)
    (hdirty : (getRepoInfo env inp).1.isDirty = false)
    (hmut : lookupMut env.now env.tarballTtl st.cache
      ⟨(getRepoInfo env inp).1.cacheType, inp.name,
        (getRepoInfo env inp).1.url, ref⟩ = none)
    (hall : inp.allRefs = false)
    (hrf : st.mirror.refFile = some (c, m))
    (hfresh : ¬ (m + env.tarballTtl ≤ env.now)) :
    (fetch env inp st).1 =
      (finishFetch env none (getRepoInfo env inp).1
        ⟨(getRepoInfo env inp).1.cacheType, inp.name,
          (getRepoInfo env inp).1.url, ref⟩
        { inp with ref? := some ref, rev? := some c } c
        { st with mirror :=
            { cacheDirExists := true, refFile := some (c, m) } }).1 ∧
    (fetch env inp st).2.1 =
      (finishFetch env none (getRepoInfo env inp).1
        ⟨(getRepoInfo env inp).1.cacheType, inp.name,
          (getRepoInfo env inp).1.url, ref⟩
        { inp with ref? := some ref, rev? := some c } c
        { st with mirror :=
            { cacheDirExists := true, refFile := some (c, m) } }).2.1 ∧
    (∀ e, e ∈ (fetch env inp st).2.2 →
      e ∈ (finishFetch env none (getRepoInfo env inp).1
        ⟨(getRepoInfo env inp).1.cacheType, inp.name,
          (getRepoInfo env inp).1.url, ref⟩
        { inp with ref? := some ref, rev? := some c } c
        { st with mirror :=
            { cacheDirExists := true, refFile := some (c, m) } }).2.2 ∨
        e = .probeDotGit ∨ e = .gitRevParseCommonDir ∨ e = .readHeadsDir ∨
        e = .gitDiffIndex ∨ e = .gitInit ∨ e = .statRefFile ∨
        e = .readRefFile) := by
  rw [fetch_remote_path env inp st ref hrev href hlocal hdirty hmut]
  have harf : (getRepoInfo env inp).1.allRefs = inp.allRefs :=
    getRepoInfo_allRefs env inp
  simp only [remoteMirror, hrev, harf]
  rw [if_neg (by simp [hall])]
  simp only [hrf]
  rw [if_neg hfresh]
  simp only [mirrorTail, hrf]
  refine ⟨by trivial, by trivial, ?_⟩
  intro e he
  have hev0 : e ∈ (getRepoInfo env inp).2 →
      e = .probeDotGit ∨ e = .gitRevParseCommonDir ∨ e = .readHeadsDir ∨
        e = .gitDiffIndex := getRepoInfo_events_sub env inp e
  simp only [List.mem_append] at he
  split_ifs at he <;> simp_all <;> tauto

/-! ## Concrete fixtures for the fetch claims -/

/-- A concrete oracle environment: time 100, TTL 10, upstream at revision
`UREV`, a full-history mirror, and a store that names a tree after its
request name and revision. -/
def sampleEnv : GitEnv :=
  { now := 100, tarballTtl := 10, allowDirty := false, warnDirty := false,
    forceHttp := false, dotGitExists := true, headsNonEmpty := true,
    diffIndexEmpty := true, localHead := "main",
    localRevParse := fun _ => "LREV", revInMirror := fun _ => false,
    fetchOutcome := some "UREV", isShallowRepo := false,
    commitExists := fun _ => true, dirtyStorePath := "dirtySP",
    headLastModified := 7, storePathOf := fun n r => n ++ "-" ++ r,
    lastModifiedOf := fun _ => 42, revCountOf := fun _ => 5 }

/-- The same environment with the network down. -/
def sampleEnvFail : GitEnv := { sampleEnv with fetchOutcome := none }

/-- The same environment over a shallow mirror. -/
def sampleEnvShallowRepo : GitEnv := { sampleEnv with isShallowRepo := true }

/-- A remote `https` input on branch `main`, no pinned revision. -/
def sampleRemoteInput : Input :=
  { url := { scheme := "https", path := "/p", base := "https://x/y" },
    ref? := some "main", rev? := none, shallow := false, submodules := false,
    allRefs := false, name := "source" }

/-- The remote input with the `shallow` flag set. -/
def sampleShallowInput : Input := { sampleRemoteInput with shallow := true }

/-- The remote input pinned to revision `UREV`. -/
def samplePinnedInput : Input :=
  { sampleRemoteInput with rev? := some "UREV" }

/-- A pinned input addressed through a `file` URL. -/
def samplePinnedFileInput : Input :=
  { samplePinnedInput with
    url := { scheme := "file", path := "/p", base := "file:///p" } }

/-- Empty caches, no mirror yet. -/
def sampleState0 : FetchState :=
  { cache := { imm := [], mutb := [] },
    mirror := { cacheDirExists := false, refFile := none } }

/-- A mirror whose ref marker records `OLD` and is exactly TTL old. -/
def sampleStateStale : FetchState :=
  { cache := { imm := [], mutb := [] },
    mirror := { cacheDirExists := true, refFile := some ("OLD", 90) } }

/-- A mirror whose ref marker records `OLD` and is within the TTL window. -/
def sampleStateFresh : FetchState :=
  { cache := { imm := [], mutb := [] },
    mirror := { cacheDirExists := true, refFile := some ("OLD", 91) } }

/-- A state whose immutable cache already holds revision `UREV`. -/
def sampleStateHit : FetchState :=
  { cache :=
      { imm := [(⟨"git", "source", "UREV"⟩, ⟨"UREV", 42, some 5⟩, "SP")],
        mutb := [] },
    mirror := { cacheDirExists := false, refFile := none } }

/-! ## Claims about the fetch state machine -/

/-- C4: on a forced refresh of the remote mirror, a network failure is
fatal (`FetchFailed`) when no ref marker was ever written; when a marker
exists the failure is downgraded to a warning and the stale revision behind
the marker is the one used; and in every non-fatal outcome (success or
fallback) the marker's mtime afterwards is the attempt time `now`. -/
theorem claim_C4_stale_fallback (env : GitEnv) (inp : Input) (st : FetchState)
    (ref : String)
    (hrev : inp.rev? = none)
    (href : inp.ref? = some ref)
    (hlocal : (getRepoInfo env inp).1.isLocal = false)
    (hdirty : (getRepoInfo env inp).1.isDirty = false)
    (hmut : lookupMut env.now env.tarballTtl st.cache
      ⟨(getRepoInfo env inp).1.cacheType, inp.name,
        (getRepoInfo env inp).1.url, ref⟩ = none)
    (hforce : st.mirror.refFile = none ∨ inp.allRefs = true ∨
      ∃ c m, st.mirror.refFile = some (c, m) ∧ m + env.tarballTtl ≤ env.now) :
    (env.fetchOutcome = none → st.mirror.refFile = none →
      (fetch env inp st).1 = .error .fetchFailed) ∧
    (∀ c m, env.fetchOutcome = none → st.mirror.refFile = some (c, m) →
      Event.warnStale ∈ (fetch env inp st).2.2 ∧
      (fetch env inp st).1 ≠ .error .fetchFailed ∧
      (fetch env inp st).2.1.mirror.refFile = some (c, env.now) ∧
      (∀ sp' inp', (fetch env inp st).1 = .ok (sp', inp') →
        inp'.rev? = some c)) ∧
    (∀ u, env.fetchOutcome = some u →
      (fetch env inp st).2.1.mirror.refFile = some (u, env.now)) := by
  rw [fetch_remote_path env inp st ref hrev href hlocal hdirty hmut]
  have harf : (getRepoInfo env inp).1.allRefs = inp.allRefs :=
    getRepoInfo_allRefs env inp
  refine ⟨?_, ?_, ?_⟩
  · -- fatal case: no marker, network failure
    intro hout hrf
    simp only [remoteMirror, hrev, harf]
    by_cases ha : inp.allRefs = true
    · rw [if_pos ha]
      simp [doFetchStep, hout, hrf]
    · rw [if_neg ha]
      simp [doFetchStep, hout, hrf]
  · -- fallback case: marker exists, network failure
    intro c m hout hrf
    simp only [remoteMirror, hrev, harf]
    have hgoal : ∀ (inp' : Input) (mir0 : MirrorState) (evs0 : List Event),
        inp'.rev? = none → mir0.refFile = some (c, m) →
        Event.warnStale ∈ (doFetchStep env none (getRepoInfo env inp).1
          ⟨(getRepoInfo env inp).1.cacheType, inp.name,
            (getRepoInfo env inp).1.url, ref⟩ inp' st mir0 evs0).2.2 ∧
        (doFetchStep env none (getRepoInfo env inp).1
          ⟨(getRepoInfo env inp).1.cacheType, inp.name,
            (getRepoInfo env inp).1.url, ref⟩ inp' st mir0 evs0).1 ≠
            .error .fetchFailed ∧
        (doFetchStep env none (getRepoInfo env inp).1
          ⟨(getRepoInfo env inp).1.cacheType, inp.name,
            (getRepoInfo env inp).1.url, ref⟩
          inp' st mir0 evs0).2.1.mirror.refFile = some (c, env.now) ∧
        (∀ sp' inp'', (doFetchStep env none (getRepoInfo env inp).1
          ⟨(getRepoInfo env inp).1.cacheType, inp.name,
            (getRepoInfo env inp).1.url, ref⟩
          inp' st mir0 evs0).1 = .ok (sp', inp'') →
            inp''.rev? = some c) := by
      intro inp' mir0 evs0 hrev' hrf'
      simp only [doFetchStep, hout, hrf']
      refine ⟨?_, ?_, ?_, ?_⟩
      · exact mirrorTail_events_mono _ _ _ _ _ _ _ _ _ (by simp)
      · exact mirrorTail_ne_fetchFailed _ _ _ _ _ _ _ _
      · rw [mirrorTail_mirror]
      · intro sp' inp'' hok
        exact mirrorTail_rev _ _ _ _ _ _ _ _ c env.now hrev' rfl _ _ hok
    have happ : ∀ (inp' : Input) (mir0 : MirrorState) (evs0 : List Event),
        inp'.rev? = none → mir0.refFile = some (c, m) →
        Event.warnStale ∈ (getRepoInfo env inp).2 ++
          (doFetchStep env none (getRepoInfo env inp).1
            ⟨(getRepoInfo env inp).1.cacheType, inp.name,
              (getRepoInfo env inp).1.url, ref⟩ inp' st mir0 evs0).2.2 ∧
        (doFetchStep env none (getRepoInfo env inp).1
          ⟨(getRepoInfo env inp).1.cacheType, inp.name,
            (getRepoInfo env inp).1.url, ref⟩ inp' st mir0 evs0).1 ≠
            .error .fetchFailed ∧
        (doFetchStep env none (getRepoInfo env inp).1
          ⟨(getRepoInfo env inp).1.cacheType, inp.name,
            (getRepoInfo env inp).1.url, ref⟩
          inp' st mir0 evs0).2.1.mirror.refFile = some (c, env.now) ∧
        (∀ sp' inp'', (doFetchStep env none (getRepoInfo env inp).1
          ⟨(getRepoInfo env inp).1.cacheType, inp.name,
            (getRepoInfo env inp).1.url, ref⟩
          inp' st mir0 evs0).1 = .ok (sp', inp'') →
            inp''.rev? = some c) := by
      intro inp' mir0 evs0 h1 h2
      exact ⟨List.mem_append_right _ (hgoal _ _ _ h1 h2).1,
        (hgoal _ _ _ h1 h2).2.1, (hgoal _ _ _ h1 h2).2.2.1,
        (hgoal _ _ _ h1 h2).2.2.2⟩
    rcases hforce with h | h | ⟨c', m', hcm, hst⟩
    · rw [h] at hrf; cases hrf
    · rw [if_pos h]
      exact happ _ _ _ (by simp [hrev]) (by simp [hrf])
    · rw [hrf] at hcm
      cases hcm
      by_cases ha : inp.allRefs = true
      · rw [if_pos ha]
        exact happ _ _ _ (by simp [hrev]) (by simp [hrf])
      · rw [if_neg ha]
        simp only [hrf]
        rw [if_pos hst]
        exact happ _ _ _ (by simp [hrev]) (by simp [hrf])
  · -- success case: marker stamped with the attempt time
    intro u hout
    simp only [remoteMirror, hrev, harf]
    have hgoal : ∀ (inp' : Input) (mir0 : MirrorState) (evs0 : List Event),
        (doFetchStep env none (getRepoInfo env inp).1
          ⟨(getRepoInfo env inp).1.cacheType, inp.name,
            (getRepoInfo env inp).1.url, ref⟩
          inp' st mir0 evs0).2.1.mirror.refFile = some (u, env.now) := by
      intro inp' mir0 evs0
      simp only [doFetchStep, hout]
      rw [mirrorTail_mirror]
    rcases hforce with h | h | ⟨c, m, hcm, hst⟩
    · by_cases ha : inp.allRefs = true
      · rw [if_pos ha]
        exact hgoal _ _ _
      · rw [if_neg ha]
        simp only [h]
        exact hgoal _ _ _
    · rw [if_pos h]
      exact hgoal _ _ _
    · by_cases ha : inp.allRefs = true
      · rw [if_pos ha]
        exact hgoal _ _ _
      · rw [if_neg ha]
        simp only [hcm]
        rw [if_pos hst]
        exact hgoal _ _ _

/-- C6: with a shallow materialized repository, a fetch whose `shallow`
flag is unset fails with the shallow-mismatch error before any extraction
or ingestion takes place; the same repository fetched with `shallow = true`
succeeds and the result omits `revCount`. -/
theorem claim_C6_shallow_invariant (env : GitEnv) (inp : Input)
    (st : FetchState) (ref c : String) (m : Nat)
    (hrev : inp.rev? = none) (href : inp.ref? = some ref)
    (hlocal : (getRepoInfo env inp).1.isLocal = false)
    (hdirty : (getRepoInfo env inp).1.isDirty = false)
    (hmut : lookupMut env.now env.tarballTtl st.cache
      ⟨(getRepoInfo env inp).1.cacheType, inp.name,
        (getRepoInfo env inp).1.url, ref⟩ = none)
    (hall : inp.allRefs = false)
    (hrf : st.mirror.refFile = some (c, m))
    (hfresh : ¬ (m + env.tarballTtl ≤ env.now))
    (hshrepo : env.isShallowRepo = true) :
    (inp.shallow = false →
      (fetch env inp st).1 = .error .shallowMismatch ∧
      Event.ingest ∉ (fetch env inp st).2.2 ∧
      Event.gitArchive ∉ (fetch env inp st).2.2 ∧
      Event.gitSubmoduleOps ∉ (fetch env inp st).2.2) ∧
    (inp.shallow = true → env.commitExists c = true →
      lookupImm st.cache
        ⟨(getRepoInfo env inp).1.cacheType, inp.name, c⟩ = none →
      inp.revCount? = none →
      ∃ inp', (fetch env inp st).1 = .ok (env.storePathOf inp.name c, inp') ∧
        inp'.rev? = some c ∧ inp'.revCount? = none) := by
  obtain ⟨h1, h2, h3⟩ :=
    fetch_freshMarker_result env inp st ref c m hrev href hlocal hdirty hmut
      hall hrf hfresh
  constructor
  · intro hsh
    have hrish : (getRepoInfo env inp).1.shallow = false := by
      rw [getRepoInfo_shallow]; exact hsh
    have hfin2 : (finishFetch env none (getRepoInfo env inp).1
        ⟨(getRepoInfo env inp).1.cacheType, inp.name,
          (getRepoInfo env inp).1.url, ref⟩
        { inp with ref? := some ref, rev? := some c } c
        { st with mirror :=
            { cacheDirExists := true, refFile := some (c, m) } }).2.2 =
        [Event.gitIsShallow] := by
      unfold finishFetch
      rw [if_pos (by simp [hshrepo, hrish])]
    refine ⟨?_, ?_, ?_, ?_⟩
    · rw [h1]
      unfold finishFetch
      rw [if_pos (by simp [hshrepo, hrish])]
    · intro hin
      rcases h3 _ hin with h | h | h | h | h | h | h | h <;>
        simp_all [hfin2]
    · intro hin
      rcases h3 _ hin with h | h | h | h | h | h | h | h <;>
        simp_all [hfin2]
    · intro hin
      rcases h3 _ hin with h | h | h | h | h | h | h | h <;>
        simp_all [hfin2]
  · intro hsh hc himm hrc
    have hrish : (getRepoInfo env inp).1.shallow = true := by
      rw [getRepoInfo_shallow]; exact hsh
    rw [h1]
    unfold finishFetch
    rw [if_neg (by simp [hrish])]
    simp only [himm]
    rw [if_neg (by simp [hc])]
    simp only [makeResult, hrish, if_pos]
    exact ⟨_, rfl, rfl, hrc⟩

/-- Witness for C4 at a concrete input: network down, marker `OLD`
present — the fetch warns, proceeds, and re-stamps the marker. -/
theorem claim_C4_witness :
    Event.warnStale ∈
      (fetch sampleEnvFail sampleRemoteInput sampleStateStale).2.2 ∧
    (fetch sampleEnvFail sampleRemoteInput
      sampleStateStale).2.1.mirror.refFile = some ("OLD", 100) :=
  ⟨((claim_C4_stale_fallback sampleEnvFail sampleRemoteInput sampleStateStale
      "main" rfl rfl rfl rfl rfl
      (.inr (.inr ⟨"OLD", 90, rfl, by decide⟩))).2.1 "OLD" 90 rfl rfl).1,
    ((claim_C4_stale_fallback sampleEnvFail sampleRemoteInput sampleStateStale
      "main" rfl rfl rfl rfl rfl
      (.inr (.inr ⟨"OLD", 90, rfl, by decide⟩))).2.1 "OLD" 90 rfl rfl).2.2.1⟩

/-- Witness for C6 at concrete inputs: a shallow mirror rejects a
non-shallow request and satisfies a shallow one without `revCount`. -/
theorem claim_C6_witness :
    (fetch sampleEnvShallowRepo sampleRemoteInput sampleStateFresh).1 =
      .error .shallowMismatch ∧
    (∃ inp',
      (fetch sampleEnvShallowRepo sampleShallowInput sampleStateFresh).1 =
        .ok ("source-OLD", inp') ∧
      inp'.rev? = some "OLD" ∧ inp'.revCount? = none) :=
  ⟨((claim_C6_shallow_invariant sampleEnvShallowRepo sampleRemoteInput
      sampleStateFresh "main" "OLD" 91 rfl rfl rfl rfl rfl rfl rfl
      (by decide) rfl).1 rfl).1,
    (claim_C6_shallow_invariant sampleEnvShallowRepo sampleShallowInput
      sampleStateFresh "main" "OLD" 91 rfl rfl rfl rfl rfl rfl rfl
      (by decide) rfl).2 rfl rfl rfl rfl⟩

/-- Whenever the refresh condition holds (no marker, `allRefs`, or a
marker at least TTL old), the fetch performs the network refresh. -/
theorem fetch_forced_gitFetch (env : GitEnv) (inp : Input) (st : FetchState)
    (ref : String)
    (hrev : inp.rev? = none) (href : inp.ref? = some ref)
    (hlocal : (getRepoInfo env inp).1.isLocal = false)
    (hdirty : (getRepoInfo env inp).1.isDirty = false)
    (hmut : lookupMut env.now env.tarballTtl st.cache
      ⟨(getRepoInfo env inp).1.cacheType, inp.name,
        (getRepoInfo env inp).1.url, ref⟩ = none)
    (hforce : st.mirror.refFile = none ∨ inp.allRefs = true ∨
      ∃ c m, st.mirror.refFile = some (c, m) ∧ m + env.tarballTtl ≤ env.now) :
    Event.gitFetch ∈ (fetch env inp st).2.2 := by
  rw [fetch_remote_path env inp st ref hrev href hlocal hdirty hmut]
  have harf : (getRepoInfo env inp).1.allRefs = inp.allRefs :=
    getRepoInfo_allRefs env inp
  refine List.mem_append_right _ ?_
  simp only [remoteMirror, hrev, harf]
  rcases hforce with h | h | ⟨c, m, hcm, hst⟩
  · by_cases ha : inp.allRefs = true
    · rw [if_pos ha]
      exact doFetchStep_gitFetch _ _ _ _ _ _ _ _
    · rw [if_neg ha]
      simp only [h]
      exact doFetchStep_gitFetch _ _ _ _ _ _ _ _
  · rw [if_pos h]
    exact doFetchStep_gitFetch _ _ _ _ _ _ _ _
  · by_cases ha : inp.allRefs = true
    · rw [if_pos ha]
      exact doFetchStep_gitFetch _ _ _ _ _ _ _ _
    · rw [if_neg ha]
      simp only [hcm]
      rw [if_pos hst]
      exact doFetchStep_gitFetch _ _ _ _ _ _ _ _

/-- C3 (amended): with no pinned revision, the remote mirror is refreshed
exactly when `allRefs` is set, or the ref marker is absent, or the marker
is *at least* `ttl` seconds old (`mtime + ttl ≤ now`); with `ttl = 0` every
call whose marker does not postdate the clock refreshes; otherwise the
revision recorded behind the marker is reused and no network operation is
performed. -/
theorem claim_C3_amended_ttl (env : GitEnv) (inp : Input) (st : FetchState)
    (ref : String)
    (hrev : inp.rev? = none) (href : inp.ref? = some ref)
    (hlocal : (getRepoInfo env inp).1.isLocal = false)
    (hdirty : (getRepoInfo env inp).1.isDirty = false)
    (hmut : lookupMut env.now env.tarballTtl st.cache
      ⟨(getRepoInfo env inp).1.cacheType, inp.name,
        (getRepoInfo env inp).1.url, ref⟩ = none) :
    (st.mirror.refFile = none → Event.gitFetch ∈ (fetch env inp st).2.2) ∧
    (∀ c m, st.mirror.refFile = some (c, m) →
      (Event.gitFetch ∈ (fetch env inp st).2.2 ↔
        (inp.allRefs = true ∨ m + env.tarballTtl ≤ env.now))) ∧
    (env.tarballTtl = 0 → ∀ c m, st.mirror.refFile = some (c, m) →
      m ≤ env.now → Event.gitFetch ∈ (fetch env inp st).2.2) ∧
    (∀ c m, st.mirror.refFile = some (c, m) → inp.allRefs = false →
      ¬ (m + env.tarballTtl ≤ env.now) →
      (∀ e ∈ (fetch env inp st).2.2, e.isNetwork = false) ∧
      (∀ sp' inp', (fetch env inp st).1 = .ok (sp', inp') →
        inp'.rev? = some c)) := by
  have hfresh_case : ∀ c m, st.mirror.refFile = some (c, m) →
      inp.allRefs = false → ¬ (m + env.tarballTtl ≤ env.now) →
      (∀ e ∈ (fetch env inp st).2.2, e.isNetwork = false) ∧
      (∀ sp' inp', (fetch env inp st).1 = .ok (sp', inp') →
        inp'.rev? = some c) := by
    intro c m hrf hall hfresh
    obtain ⟨h1, h2, h3⟩ :=
      fetch_freshMarker_result env inp st ref c m hrev href hlocal hdirty
        hmut hall hrf hfresh
    constructor
    · intro e he
      rcases h3 e he with h | h | h | h | h | h | h | h
      · rcases finishFetch_events_sub _ _ _ _ _ _ _ _ h with
          h' | h' | h' | h' | h' | h' | h' | h' | h' <;> simp [h', Event.isNetwork]
      all_goals simp [h, Event.isNetwork]
    · intro sp' inp' hok
      rw [h1] at hok
      have := finishFetch_rev _ _ _ _ _ _ _ _ _ hok
      simpa using this
  refine ⟨?_, ?_, ?_, hfresh_case⟩
  · intro hrf
    exact fetch_forced_gitFetch env inp st ref hrev href hlocal hdirty hmut
      (.inl hrf)
  · intro c m hrf
    constructor
    · intro hin
      by_contra hnot
      push_neg at hnot
      obtain ⟨hall, hfresh⟩ := hnot
      have hall' : inp.allRefs = false := by
        cases h : inp.allRefs
        · rfl
        · exact absurd h hall
      have := (hfresh_case c m hrf hall' (by omega)).1 _ hin
      simp [Event.isNetwork] at this
    · intro h
      rcases h with h | h
      · exact fetch_forced_gitFetch env inp st ref hrev href hlocal hdirty
          hmut (.inr (.inl h))
      · exact fetch_forced_gitFetch env inp st ref hrev href hlocal hdirty
          hmut (.inr (.inr ⟨c, m, hrf, h⟩))
  · intro httl c m hrf hm
    exact fetch_forced_gitFetch env inp st ref hrev href hlocal hdirty hmut
      (.inr (.inr ⟨c, m, hrf, by omega⟩))

/-- C3 counterexample: the claim as frozen says a refresh happens exactly
when the marker is *older than* `ttl` seconds (strictly).  With the marker
aged exactly `ttl` (mtime 90, ttl 10, now 100) the claim predicts no
refresh — `allRefs` is unset, the marker exists, and `now − mtime > ttl`
is false — yet the code refreshes (`mtime + ttl ≤ now` holds). -/
theorem claim_C3_counterexample :
    Event.gitFetch ∈ (fetch sampleEnv sampleRemoteInput sampleStateStale).2.2 ∧
    sampleRemoteInput.allRefs = false ∧
    sampleStateStale.mirror.refFile = some ("OLD", 90) ∧
    ¬ (sampleEnv.now - 90 > sampleEnv.tarballTtl) :=
  ⟨by decide, rfl, rfl, by decide⟩

/-- Witness for C3 (amended) at a concrete input: a marker within the TTL
window produces zero network operations and reuses its recorded
revision. -/
theorem claim_C3_witness :
    (∀ e ∈ (fetch sampleEnv sampleRemoteInput sampleStateFresh).2.2,
      e.isNetwork = false) ∧
    (∀ sp' inp',
      (fetch sampleEnv sampleRemoteInput sampleStateFresh).1 =
        .ok (sp', inp') → inp'.rev? = some "OLD") :=
  (claim_C3_amended_ttl sampleEnv sampleRemoteInput sampleStateFresh "main"
    rfl rfl rfl rfl rfl).2.2.2 "OLD" 91 rfl rfl (by decide)

/-- A state whose immutable cache already holds revision `OLD`, with a
fresh ref marker recording `OLD`. -/
def sampleStateFreshHit : FetchState :=
  { cache :=
      { imm := [(⟨"git", "source", "OLD"⟩, ⟨"OLD", 42, some 5⟩, "SPOLD")],
        mutb := [] },
    mirror := { cacheDirExists := true, refFile := some ("OLD", 91) } }

/-- C1 (amended): a pinned-revision fetch that hits the immutable cache
returns the stored ContentIdentifier at once, leaves the state untouched,
and performs no tool invocation and no network access — the only possible
event is the `.git` classification probe, absent for non-`file` URLs; and
once a revision becomes known through ref resolution, the immutable lookup
is retried, a hit returning the stored ContentIdentifier with no
extraction, no ingestion and no cache write. -/
theorem claim_C1_amended_idempotence (env : GitEnv) (inp : Input)
    (st : FetchState) :
    (∀ rev info sp, inp.rev? = some rev →
      lookupImm st.cache
        ⟨(getRepoInfo env inp).1.cacheType, inp.name, rev⟩ = some (info, sp) →
      ((getRepoInfo env inp).1.shallow = false → info.revCount?.isSome = true) →
      (∃ inp', (fetch env inp st).1 = .ok (sp, inp')) ∧
      (fetch env inp st).2.1 = st ∧
      (∀ e ∈ (fetch env inp st).2.2,
        e = Event.probeDotGit ∧ e.isTool = false ∧ e.isNetwork = false) ∧
      (inp.url.scheme ≠ "file" → (fetch env inp st).2.2 = [])) ∧
    (∀ ref c m info sp, inp.rev? = none → inp.ref? = some ref →
      (getRepoInfo env inp).1.isLocal = false →
      (getRepoInfo env inp).1.isDirty = false →
      lookupMut env.now env.tarballTtl st.cache
        ⟨(getRepoInfo env inp).1.cacheType, inp.name,
          (getRepoInfo env inp).1.url, ref⟩ = none →
      inp.allRefs = false →
      st.mirror.refFile = some (c, m) →
      ¬ (m + env.tarballTtl ≤ env.now) →
      (env.isShallowRepo && !(getRepoInfo env inp).1.shallow) = false →
      lookupImm st.cache
        ⟨(getRepoInfo env inp).1.cacheType, inp.name, c⟩ = some (info, sp) →
      ((getRepoInfo env inp).1.shallow = false → info.revCount?.isSome = true) →
      (∃ inp', (fetch env inp st).1 = .ok (sp, inp') ∧ inp'.rev? = some c) ∧
      (fetch env inp st).2.1.cache = st.cache ∧
      Event.ingest ∉ (fetch env inp st).2.2 ∧
      Event.cacheAddImm ∉ (fetch env inp st).2.2 ∧
      Event.cacheAddMut ∉ (fetch env inp st).2.2) := by
  constructor
  · intro rev info sp hrev hit hwf
    simp only [fetch, hrev, hit]
    have hmk : ∃ inp', makeResult (getRepoInfo env inp).1 inp info sp =
        .ok (sp, inp') := by
      unfold makeResult
      by_cases hsh : (getRepoInfo env inp).1.shallow = true
      · rw [if_pos hsh]
        exact ⟨_, rfl⟩
      · have hsh' : (getRepoInfo env inp).1.shallow = false := by
          cases h : (getRepoInfo env inp).1.shallow
          · rfl
          · exact absurd h hsh
        obtain ⟨n, hn⟩ := Option.isSome_iff_exists.mp (hwf hsh')
        rw [if_neg hsh, hn]
        exact ⟨_, rfl⟩
    obtain ⟨inp', hinp'⟩ := hmk
    refine ⟨⟨inp', hinp'⟩, by trivial, ?_, ?_⟩
    · intro e he
      rw [getRepoInfo_events_rev_some env inp rev hrev] at he
      split_ifs at he <;> (simp_all; try decide)
    · intro hscheme
      rw [getRepoInfo_events_rev_some env inp rev hrev]
      rw [if_neg (by simp [hscheme])]
  · intro ref c m info sp hrev href hlocal hdirty hmut hall hrf hfresh
      hnosh hit2 hwf
    obtain ⟨h1, h2, h3⟩ :=
      fetch_freshMarker_result env inp st ref c m hrev href hlocal hdirty
        hmut hall hrf hfresh
    have hfin : finishFetch env none (getRepoInfo env inp).1
        ⟨(getRepoInfo env inp).1.cacheType, inp.name,
          (getRepoInfo env inp).1.url, ref⟩
        { inp with ref? := some ref, rev? := some c } c
        { st with mirror :=
            { cacheDirExists := true, refFile := some (c, m) } } =
        (makeResult (getRepoInfo env inp).1
          { inp with ref? := some ref, rev? := some c } info sp,
          { st with mirror :=
              { cacheDirExists := true, refFile := some (c, m) } },
          [Event.gitIsShallow]) := by
      unfold finishFetch
      rw [if_neg (by simp [hnosh])]
      simp only [hit2]
    have hmk : ∃ inp', makeResult (getRepoInfo env inp).1
        { inp with ref? := some ref, rev? := some c } info sp =
        .ok (sp, inp') ∧ inp'.rev? = some c := by
      unfold makeResult
      by_cases hsh : (getRepoInfo env inp).1.shallow = true
      · rw [if_pos hsh]
        exact ⟨_, rfl, rfl⟩
      · have hsh' : (getRepoInfo env inp).1.shallow = false := by
          cases h : (getRepoInfo env inp).1.shallow
          · rfl
          · exact absurd h hsh
        obtain ⟨n, hn⟩ := Option.isSome_iff_exists.mp (hwf hsh')
        rw [if_neg hsh, hn]
        exact ⟨_, rfl, rfl⟩
    obtain ⟨inp', hinp', hinp'rev⟩ := hmk
    refine ⟨⟨inp', ?_, hinp'rev⟩, ?_, ?_, ?_, ?_⟩
    · rw [h1, hfin]
      exact hinp'
    · rw [h2, hfin]
    · intro hin
      rcases h3 _ hin with h | h | h | h | h | h | h | h <;>
        simp_all [hfin]
    · intro hin
      rcases h3 _ hin with h | h | h | h | h | h | h | h <;>
        simp_all [hfin]
    · intro hin
      rcases h3 _ hin with h | h | h | h | h | h | h | h <;>
        simp_all [hfin]

/-- C1 counterexample: the claim as frozen says a pinned-revision fetch
served from the immutable cache performs *no filesystem work*.  For a
`file`-scheme input the repo-info derivation probes `<path>/.git` on the
filesystem before the cache is consulted, so the trace of a cache-served
fetch is not free of filesystem operations. -/
theorem claim_C1_counterexample :
    (fetch sampleEnv samplePinnedFileInput sampleStateHit).1 =
      .ok ("SP",
        { samplePinnedFileInput with
          revCount? := some 5
          lastModified? := some 42 }) ∧
    (fetch sampleEnv samplePinnedFileInput sampleStateHit).2.2 =
      [Event.probeDotGit] ∧
    Event.isFilesystem .probeDotGit = true :=
  ⟨rfl, by decide, rfl⟩

/-- Witness for C1 (amended): a pinned hit over `https` with an empty
trace, and a resolved-revision hit with no ingestion. -/
theorem claim_C1_witness :
    (fetch sampleEnv samplePinnedInput sampleStateHit).2.2 = [] ∧
    (∃ inp',
      (fetch sampleEnv sampleRemoteInput sampleStateFreshHit).1 =
        .ok ("SPOLD", inp') ∧ inp'.rev? = some "OLD") ∧
    Event.ingest ∉ (fetch sampleEnv sampleRemoteInput sampleStateFreshHit).2.2 :=
  ⟨((claim_C1_amended_idempotence sampleEnv samplePinnedInput
      sampleStateHit).1 "UREV" ⟨"UREV", 42, some 5⟩ "SP" rfl rfl
      (fun _ => rfl)).2.2.2 (by decide),
    ((claim_C1_amended_idempotence sampleEnv sampleRemoteInput
      sampleStateFreshHit).2 "main" "OLD" 91 ⟨"OLD", 42, some 5⟩ "SPOLD"
      rfl rfl rfl rfl rfl rfl rfl (by decide) rfl rfl (fun _ => rfl)).1,
    ((claim_C1_amended_idempotence sampleEnv sampleRemoteInput
      sampleStateFreshHit).2 "main" "OLD" 91 ⟨"OLD", 42, some 5⟩ "SPOLD"
      rfl rfl rfl rfl rfl rfl rfl (by decide) rfl rfl (fun _ => rfl)).2.2.1⟩

/-- The cache-write postcondition of a fetch that reached ingestion: the
returned identifier is the ingested store path, carried by an input with
the resolved revision; the immutable tier now holds exactly that entry;
and the mutable tier gained a (stamped) entry precisely when the
*original* request carried no revision. -/
def C5Post (env : GitEnv) (origRev? : Option String) (name : String)
    (ri : RepoInfo)
    (out : Except FetchErr (StorePath × Input) × FetchState × List Event)
    (stIn : FetchState) : Prop :=
  ∃ rev inp',
    out.1 = .ok (env.storePathOf name rev, inp') ∧
    inp'.rev? = some rev ∧
    lookupImm out.2.1.cache ⟨ri.cacheType, name, rev⟩ =
      some (⟨rev, env.lastModifiedOf rev,
        if ri.shallow then none else some (env.revCountOf rev)⟩,
        env.storePathOf name rev) ∧
    (origRev? ≠ none → out.2.1.cache.mutb = stIn.cache.mutb) ∧
    (origRev? = none → ∃ mk,
      out.2.1.cache.mutb =
        (mk, env.now, ⟨rev, env.lastModifiedOf rev,
          if ri.shallow then none else some (env.revCountOf rev)⟩,
          env.storePathOf name rev) :: stIn.cache.mutb)

/-- `makeResult` succeeds whenever the info attributes are adequate for the
fetch mode, and it never touches the revision. -/
theorem makeResult_ok_of (ri : RepoInfo) (inp : Input) (info : InfoAttrs)
    (sp : StorePath)
    (hwf : ri.shallow = false → info.revCount?.isSome = true) :
    ∃ inp', makeResult ri inp info sp = .ok (sp, inp') ∧
      inp'.rev? = inp.rev? := by
  unfold makeResult
  by_cases hsh : ri.shallow = true
  · rw [if_pos hsh]
    exact ⟨_, rfl, rfl⟩
  · rw [Bool.not_eq_true] at hsh
    obtain ⟨n, hn⟩ := Option.isSome_iff_exists.mp (hwf hsh)
    rw [if_neg (by simp [hsh]), hn]
    exact ⟨_, rfl, rfl⟩

theorem finishFetch_ingest_post (env : GitEnv) (o : Option String)
    (ri : RepoInfo) (mk : MutKey) (inp : Input) (rev : String)
    (st : FetchState) (hrev : inp.rev? = some rev)
    (hing : Event.ingest ∈ (finishFetch env o ri mk inp rev st).2.2) :
    C5Post env o inp.name ri (finishFetch env o ri mk inp rev st) st := by
  unfold finishFetch at hing ⊢
  by_cases h1 : (env.isShallowRepo && !ri.shallow) = true
  · rw [if_pos h1] at hing
    simp at hing
  · rw [if_neg h1] at hing ⊢
    cases hlk : lookupImm st.cache ⟨ri.cacheType, inp.name, rev⟩ with
    | some pr =>
      simp only [hlk] at hing
      simp at hing
    | none =>
      simp only [hlk] at hing ⊢
      cases h2 : env.commitExists rev with
      | false =>
        simp only [h2] at hing
        simp at hing
      | true =>
        simp only [h2] at hing ⊢
        simp only [Bool.not_true, if_false] at hing ⊢
        obtain ⟨inp', hres, hrev'⟩ := makeResult_ok_of ri inp
          ⟨rev, env.lastModifiedOf rev,
            if ri.shallow then none else some (env.revCountOf rev)⟩
          (env.storePathOf inp.name rev)
          (by intro h; simp [h])
        refine ⟨rev, inp', ?_, ?_, ?_, ?_, ?_⟩
        · exact hres
        · rw [hrev', hrev]
        · exact lookupImm_addImm _ _ _ _
        · intro ho
          have ho' : o.isNone = false := by
            cases o
            · exact absurd rfl ho
            · rfl
          simp [addImm, ho']
        · intro ho
          subst ho
          exact ⟨mk, by simp [addImm, addMut]⟩

theorem mirrorTail_ingest_post (env : GitEnv) (o : Option String)
    (ri : RepoInfo) (mk : MutKey) (inp : Input) (st : FetchState)
    (mir : MirrorState) (evs : List Event)
    (hnoing : Event.ingest ∉ evs)
    (hing : Event.ingest ∈ (mirrorTail env o ri mk inp st mir evs).2.2) :
    C5Post env o inp.name ri (mirrorTail env o ri mk inp st mir evs) st := by
  unfold mirrorTail at hing ⊢
  cases hrev : inp.rev? with
  | some rev =>
    simp only [hrev] at hing ⊢
    have hing' : Event.ingest ∈
        (finishFetch env o ri mk inp rev { st with mirror := mir }).2.2 := by
      simp only [List.mem_append] at hing
      tauto
    exact finishFetch_ingest_post env o ri mk inp rev
      { st with mirror := mir } hrev hing'
  | none =>
    simp only [hrev] at hing ⊢
    cases hrf : mir.refFile with
    | none =>
      simp only [hrf] at hing
      simp at hing
      tauto
    | some pr =>
      obtain ⟨c, mt⟩ := pr
      simp only [hrf] at hing ⊢
      have hing' : Event.ingest ∈
          (finishFetch env o ri mk { inp with rev? := some c } c
            { st with mirror := mir }).2.2 := by
        simp only [List.mem_append, List.mem_singleton] at hing
        rcases hing with (h | h) | h
        · exact absurd h hnoing
        · cases h
        · exact h
      exact finishFetch_ingest_post env o ri mk { inp with rev? := some c }
        c { st with mirror := mir } rfl hing'

theorem doFetchStep_ingest_post (env : GitEnv) (o : Option String)
    (ri : RepoInfo) (mk : MutKey) (inp : Input) (st : FetchState)
    (mir0 : MirrorState) (evs0 : List Event)
    (hnoing : Event.ingest ∉ evs0)
    (hing : Event.ingest ∈
      (doFetchStep env o ri mk inp st mir0 evs0).2.2) :
    C5Post env o inp.name ri (doFetchStep env o ri mk inp st mir0 evs0)
      st := by
  unfold doFetchStep at hing ⊢
  cases hout : env.fetchOutcome with
  | some u =>
    simp only [hout] at hing ⊢
    exact mirrorTail_ingest_post _ _ _ _ _ _ _ _ (by simp [hnoing]) hing
  | none =>
    simp only [hout] at hing ⊢
    cases hrf : mir0.refFile with
    | none =>
      simp only [hrf] at hing
      simp at hing
      tauto
    | some pr =>
      obtain ⟨c, mt⟩ := pr
      simp only [hrf] at hing ⊢
      exact mirrorTail_ingest_post _ _ _ _ _ _ _ _ (by simp [hnoing]) hing

theorem remoteMirror_ingest_post (env : GitEnv) (o : Option String)
    (ri : RepoInfo) (mk : MutKey) (inp : Input) (st : FetchState)
    (evs0 : List Event)
    (hnoing : Event.ingest ∉ evs0)
    (hing : Event.ingest ∈ (remoteMirror env o ri mk inp st evs0).2.2) :
    C5Post env o inp.name ri (remoteMirror env o ri mk inp st evs0) st := by
  have hnoinit : Event.ingest ∉
      (evs0 ++ if st.mirror.cacheDirExists then [] else [Event.gitInit]) := by
    split_ifs <;> simp [hnoing]
  unfold remoteMirror at hing ⊢
  cases hrev : inp.rev? with
  | some rev =>
    simp only [hrev] at hing ⊢
    by_cases hin : env.revInMirror rev = true
    · rw [if_pos hin] at hing ⊢
      exact mirrorTail_ingest_post _ _ _ _ _ _ _ _ (by
            intro hc
            rcases List.mem_append.mp hc with h | h
            · exact hnoinit h
            · simp at h) hing
    · rw [if_neg hin] at hing ⊢
      exact doFetchStep_ingest_post _ _ _ _ _ _ _ _ (by
            intro hc
            rcases List.mem_append.mp hc with h | h
            · exact hnoinit h
            · simp at h) hing
  | none =>
    simp only [hrev] at hing ⊢
    by_cases hall : ri.allRefs = true
    · rw [if_pos hall] at hing ⊢
      exact doFetchStep_ingest_post _ _ _ _ _ _ _ _ hnoinit hing
    · rw [if_neg hall] at hing ⊢
      cases hrf : st.mirror.refFile with
      | none =>
        simp only [hrf] at hing ⊢
        exact doFetchStep_ingest_post _ _ _ _ _ _ _ _
          (by
            intro hc
            rcases List.mem_append.mp hc with h | h
            · exact hnoinit h
            · simp at h) hing
      | some pr =>
        obtain ⟨c, mt⟩ := pr
        simp only [hrf] at hing ⊢
        by_cases hstale : mt + env.tarballTtl ≤ env.now
        · rw [if_pos hstale] at hing ⊢
          exact doFetchStep_ingest_post _ _ _ _ _ _ _ _
            (by
            intro hc
            rcases List.mem_append.mp hc with h | h
            · exact hnoinit h
            · simp at h) hing
        · rw [if_neg hstale] at hing ⊢
          exact mirrorTail_ingest_post _ _ _ _ _ _ _ _
            (by
            intro hc
            rcases List.mem_append.mp hc with h | h
            · exact hnoinit h
            · simp at h) hing

theorem fetchAfterImmCheck_ingest_post (env : GitEnv) (inp0 : Input)
    (ri : RepoInfo) (st : FetchState)
    (hing : Event.ingest ∈ (fetchAfterImmCheck env inp0 ri st).2.2) :
    C5Post env inp0.rev? inp0.name ri (fetchAfterImmCheck env inp0 ri st)
      st := by
  unfold fetchAfterImmCheck at hing ⊢
  by_cases hd : ri.isDirty = true
  · rw [if_pos hd] at hing ⊢
    by_cases ha : (!env.allowDirty) = true
    · rw [if_pos ha] at hing
      simp at hing
    · rw [if_neg ha] at hing
      exfalso
      split_ifs at hing <;> simp_all
  · rw [if_neg hd] at hing ⊢
    by_cases hl : ri.isLocal = true
    · rw [if_pos hl] at hing ⊢
      cases hrev : inp0.rev? with
      | some rev =>
        simp only [hrev] at hing ⊢
        have hing' : Event.ingest ∈
            (finishFetch env (some rev) ri
              { cacheType := ri.cacheType, name := inp0.name, url := ri.url,
                ref :=
                  match inp0.ref? with
                  | some r => r
                  | none => if ri.isLocal = true then env.localHead
                      else "master" }
              { url := inp0.url,
                ref? := some
                  (match inp0.ref? with
                  | some r => r
                  | none => if ri.isLocal = true then env.localHead
                      else "master"),
                rev? := some rev, shallow := inp0.shallow,
                submodules := inp0.submodules, allRefs := inp0.allRefs,
                name := inp0.name, lastModified? := inp0.lastModified?,
                revCount? := inp0.revCount? }
              rev st).2.2 := by
          simp only [List.mem_append] at hing
          rcases hing with h | h
          · exfalso; split_ifs at h <;> simp_all
          · exact h
        exact finishFetch_ingest_post env (some rev) ri
          { cacheType := ri.cacheType, name := inp0.name, url := ri.url,
            ref :=
              match inp0.ref? with
              | some r => r
              | none => if ri.isLocal = true then env.localHead
                  else "master" }
          { url := inp0.url,
            ref? := some
              (match inp0.ref? with
              | some r => r
              | none => if ri.isLocal = true then env.localHead
                  else "master"),
            rev? := some rev, shallow := inp0.shallow,
            submodules := inp0.submodules, allRefs := inp0.allRefs,
            name := inp0.name, lastModified? := inp0.lastModified?,
            revCount? := inp0.revCount? }
          rev st rfl hing'
      | none =>
        simp only [hrev] at hing ⊢
        have hing' : Event.ingest ∈
            (finishFetch env none ri
              { cacheType := ri.cacheType, name := inp0.name, url := ri.url,
                ref :=
                  match inp0.ref? with
                  | some r => r
                  | none => if ri.isLocal = true then env.localHead
                      else "master" }
              { url := inp0.url,
                ref? := some
                  (match inp0.ref? with
                  | some r => r
                  | none => if ri.isLocal = true then env.localHead
                      else "master"),
                rev? := some (env.localRevParse
                  (match inp0.ref? with
                  | some r => r
                  | none => if ri.isLocal = true then env.localHead
                      else "master")),
                shallow := inp0.shallow,
                submodules := inp0.submodules, allRefs := inp0.allRefs,
                name := inp0.name, lastModified? := inp0.lastModified?,
                revCount? := inp0.revCount? }
              (env.localRevParse
                (match inp0.ref? with
                | some r => r
                | none => if ri.isLocal = true then env.localHead
                    else "master"))
              st).2.2 := by
          simp only [List.mem_append, List.mem_singleton] at hing
          rcases hing with (h | h) | h
          · exfalso; split_ifs at h <;> simp_all
          · cases h
          · exact h
        exact finishFetch_ingest_post env none ri
          { cacheType := ri.cacheType, name := inp0.name, url := ri.url,
            ref :=
              match inp0.ref? with
              | some r => r
              | none => if ri.isLocal = true then env.localHead
                  else "master" }
          { url := inp0.url,
            ref? := some
              (match inp0.ref? with
              | some r => r
              | none => if ri.isLocal = true then env.localHead
                  else "master"),
            rev? := some (env.localRevParse
              (match inp0.ref? with
              | some r => r
              | none => if ri.isLocal = true then env.localHead
                  else "master")),
            shallow := inp0.shallow,
            submodules := inp0.submodules, allRefs := inp0.allRefs,
            name := inp0.name, lastModified? := inp0.lastModified?,
            revCount? := inp0.revCount? }
          (env.localRevParse
            (match inp0.ref? with
            | some r => r
            | none => if ri.isLocal = true then env.localHead
                else "master"))
          st rfl hing'
    · rw [if_neg hl] at hing ⊢
      have hnoref : Event.ingest ∉
          (if inp0.ref?.isNone && ri.isLocal then [Event.gitReadHead]
            else ([] : List Event)) := by
        split_ifs <;> simp
      cases hmc : lookupMut env.now env.tarballTtl st.cache
          ⟨ri.cacheType, inp0.name, ri.url,
            (match inp0.ref? with
              | some r => r
              | none => if ri.isLocal then env.localHead else "master")⟩ with
      | some pr =>
        obtain ⟨info, sp⟩ := pr
        simp only [hmc] at hing ⊢
        by_cases hcompat :
            (inp0.rev?.isNone || inp0.rev? == some info.rev) = true
        · rw [if_pos hcompat] at hing
          exact absurd hing hnoref
        · rw [if_neg hcompat] at hing ⊢
          exact remoteMirror_ingest_post _ _ _ _ _ _ _ hnoref hing
      | none =>
        simp only [hmc] at hing ⊢
        exact remoteMirror_ingest_post _ _ _ _ _ _ _ hnoref hing

/-- C5: every fetch that reaches ingestion returns the ingested store
path, always records it under the immutable key (cacheType, name,
resolved revision), and records/refreshes the mutable entry exactly when
the original request did not pin a revision — a pinned request leaves the
mutable tier untouched. -/
theorem claim_C5_cache_write_policy (env : GitEnv) (inp : Input)
    (st : FetchState)
    (hing : Event.ingest ∈ (fetch env inp st).2.2) :
    C5Post env inp.rev? inp.name (getRepoInfo env inp).1 (fetch env inp st)
      st := by
  unfold fetch at hing ⊢
  cases hrev : inp.rev? with
  | some rev =>
    simp only [hrev] at hing ⊢
    cases hlk : lookupImm st.cache
        ⟨(getRepoInfo env inp).1.cacheType, inp.name, rev⟩ with
    | some pr =>
      obtain ⟨info, sp⟩ := pr
      simp only [hlk] at hing
      exfalso
      rcases getRepoInfo_events_sub env inp _ hing with h | h | h | h <;>
        cases h
    | none =>
      simp only [hlk] at hing ⊢
      have hing' : Event.ingest ∈
          (fetchAfterImmCheck env inp (getRepoInfo env inp).1 st).2.2 := by
        simp only [List.mem_append] at hing
        rcases hing with h | h
        · exfalso
          rcases getRepoInfo_events_sub env inp _ h with h' | h' | h' | h' <;>
            cases h'
        · exact h
      have h := fetchAfterImmCheck_ingest_post env inp
        (getRepoInfo env inp).1 st hing'
      rw [hrev] at h
      exact h
  | none =>
    simp only [hrev] at hing ⊢
    have hing' : Event.ingest ∈
        (fetchAfterImmCheck env inp (getRepoInfo env inp).1 st).2.2 := by
      simp only [List.mem_append] at hing
      rcases hing with h | h
      · exfalso
        rcases getRepoInfo_events_sub env inp _ h with h' | h' | h' | h' <;>
          cases h'
      · exact h
    have h := fetchAfterImmCheck_ingest_post env inp
      (getRepoInfo env inp).1 st hing'
    rw [hrev] at h
    exact h

/-- Witness for C5 at a concrete input: a full remote run (no pinned rev)
reaches ingestion. -/
theorem claim_C5_witness :
    C5Post sampleEnv none "source" (getRepoInfo sampleEnv sampleRemoteInput).1
      (fetch sampleEnv sampleRemoteInput sampleState0) sampleState0 :=
  claim_C5_cache_write_policy sampleEnv sampleRemoteInput sampleState0
    (by decide)

/-! ## Claims about the tree serializer -/

theorem FSNode.one_le_sizeOf : ∀ t : FSNode, 1 ≤ sizeOf t := by
  intro t
  cases t <;> simp

theorem entries_one_le_sizeOf : ∀ m : List (String × FSNode), 1 ≤ sizeOf m := by
  intro m
  cases m with
  | nil => simp
  | cons a l => simp; omega

/-- The serializer invokes the include predicate on, and recurses along,
paths formed by appending the entry name to the current path; prefixing
the starting path only prefixes every predicate argument. -/
theorem dumpT_rebase : ∀ n : Nat,
    (∀ (t : FSNode) (f : List String → Bool) (base p : List String),
      sizeOf t ≤ n →
      dumpT f (base ++ p) t =
        ((dumpT (fun s => f (base ++ s)) p t).1,
          ((dumpT (fun s => f (base ++ s)) p t).2).map
            (fun s => base ++ s))) ∧
    (∀ (m : List (String × FSNode)) (f : List String → Bool)
      (base p : List String),
      sizeOf m ≤ n →
      dumpEntriesT f (base ++ p) m =
        ((dumpEntriesT (fun s => f (base ++ s)) p m).1,
          ((dumpEntriesT (fun s => f (base ++ s)) p m).2).map
            (fun s => base ++ s))) := by
  intro n
  induction n with
  | zero =>
    constructor
    · intro t f base p hle
      have := FSNode.one_le_sizeOf t
      omega
    · intro m f base p hle
      have := entries_one_le_sizeOf m
      omega
  | succ n ih =>
    obtain ⟨ihT, ihE⟩ := ih
    constructor
    · intro t f base p hle
      cases t with
      | regular s x => simp [dumpT]
      | symlink t => simp [dumpT]
      | misc => simp [dumpT]
      | directory entries =>
        have hsz : sizeOf (toUnhacked entries) ≤ n := by
          have h1 := sizeOf_toUnhacked entries
          simp at hle
          omega
        have hE := ihE (toUnhacked entries) f base p hsz
        simp only [dumpT]
        rw [hE]
        rcases hI : dumpEntriesT (fun s => f (base ++ s)) p
            (toUnhacked entries) with ⟨r, calls⟩
        cases r <;> simp
    · intro m f base p hle
      cases m with
      | nil => simp [dumpEntriesT]
      | cons hd rest =>
        obtain ⟨nm, node⟩ := hd
        have hszn : sizeOf node ≤ n := by
          simp at hle
          omega
        have hszr : sizeOf rest ≤ n := by
          simp at hle
          omega
        simp only [dumpEntriesT]
        rw [List.append_assoc]
        by_cases hf : f (base ++ (p ++ [nm])) = true
        · rw [if_pos hf, if_pos hf]
          rw [ihT node f base (p ++ [nm]) hszn]
          rcases hI : dumpT (fun s => f (base ++ s)) (p ++ [nm]) node with
            ⟨r, calls⟩
          cases r with
          | error e => simp
          | ok toks =>
            rw [ihE rest f base p hszr]
            rcases hI2 : dumpEntriesT (fun s => f (base ++ s)) p rest with
              ⟨r2, calls2⟩
            cases r2 <;> simp
        · rw [if_neg hf, if_neg hf]
          rw [ihE rest f base p hszr]
          rcases hI2 : dumpEntriesT (fun s => f (base ++ s)) p rest with
            ⟨r2, calls2⟩
          simp

/-- Key-respecting binary relations on entries are preserved by the
ordered-map insertion (branch decisions depend only on keys). -/
theorem stdMapInsert_forall₂
    {R : (String × FSNode) → (String × FSNode) → Prop}
    (hkey : ∀ a b, R a b → a.1 = b.1) :
    ∀ {m₁ m₂ : List (String × FSNode)}, List.Forall₂ R m₁ m₂ →
    ∀ {a b : String × FSNode}, R a b →
    List.Forall₂ R (stdMapInsert m₁ a.1 a.2) (stdMapInsert m₂ b.1 b.2) := by
  intro m₁ m₂ hm
  induction hm with
  | nil =>
    intro a b hab
    simpa [stdMapInsert] using List.Forall₂.cons hab List.Forall₂.nil
  | cons hhd htl ih =>
    intro a b hab
    rename_i x y l₁ l₂
    have hxy : x.1 = y.1 := hkey _ _ hhd
    have habk : a.1 = b.1 := hkey _ _ hab
    obtain ⟨k, v⟩ := a
    obtain ⟨k', v'⟩ := b
    obtain ⟨kx, vx⟩ := x
    obtain ⟨ky, vy⟩ := y
    simp at hxy habk
    subst hxy habk
    simp only [stdMapInsert]
    by_cases h1 : strLt k kx = true
    · rw [if_pos h1, if_pos h1]
      exact List.Forall₂.cons hab (List.Forall₂.cons hhd htl)
    · rw [if_neg h1, if_neg h1]
      by_cases h2 : k = kx
      · rw [if_pos h2, if_pos h2]
        exact List.Forall₂.cons hhd htl
      · rw [if_neg h2, if_neg h2]
        exact List.Forall₂.cons hhd (ih hab)

/-- Key-respecting relations are preserved by the name-ordered-map
collection phase. -/
theorem toUnhacked_forall₂
    {R : (String × FSNode) → (String × FSNode) → Prop}
    (hkey : ∀ a b, R a b → a.1 = b.1)
    {l₁ l₂ : List (String × FSNode)} (h : List.Forall₂ R l₁ l₂) :
    List.Forall₂ R (toUnhacked l₁) (toUnhacked l₂) := by
  suffices hgen : ∀ {acc₁ acc₂ : List (String × FSNode)},
      List.Forall₂ R acc₁ acc₂ →
      List.Forall₂ R
        (l₁.foldl (fun m p => stdMapInsert m p.1 p.2) acc₁)
        (l₂.foldl (fun m p => stdMapInsert m p.1 p.2) acc₂) by
    exact hgen List.Forall₂.nil
  induction h with
  | nil => intro acc₁ acc₂ hacc; simpa using hacc
  | cons hhd htl ih =>
    intro acc₁ acc₂ hacc
    simp only [List.foldl_cons]
    exact ih (stdMapInsert_forall₂ hkey hacc hhd)

/-- Aligned key lists plus pointwise-related nodes give the combined
entry relation. -/
theorem forall₂_of_maps {R : FSNode → FSNode → Prop} :
    ∀ {l₁ l₂ : List (String × FSNode)},
    l₁.map Prod.fst = l₂.map Prod.fst →
    List.Forall₂ R (l₁.map Prod.snd) (l₂.map Prod.snd) →
    List.Forall₂ (fun a b => a.1 = b.1 ∧ R a.2 b.2) l₁ l₂ := by
  intro l₁
  induction l₁ with
  | nil =>
    intro l₂ hk _
    cases l₂ with
    | nil => exact List.Forall₂.nil
    | cons b bs => simp at hk
  | cons a as ih =>
    intro l₂ hk hv
    cases l₂ with
    | nil => simp at hk
    | cons b bs =>
      simp only [List.map_cons, List.cons.injEq] at hk
      cases hv with
      | cons hab htl => exact List.Forall₂.cons ⟨hk.1, hab⟩ (ih hk.2 htl)

/-- The per-path entry relation of the exclusion argument: equal names,
and either equal nodes or a name the predicate excludes at this path. -/
def entrySameOrExcluded (f : List String → Bool) (p : List String) :
    (String × FSNode) → (String × FSNode) → Prop :=
  fun a b => a.1 = b.1 ∧ (a.2 = b.2 ∨ f (p ++ [a.1]) = false)

/-- Entry lists related by `entrySameOrExcluded` serialize identically:
an entry the predicate excludes contributes nothing (no tokens and no
recursive descent), so its subtree is irrelevant. -/
theorem dumpEntriesT_congr_excluded (f : List String → Bool)
    (p : List String) :
    ∀ {m₁ m₂ : List (String × FSNode)},
    List.Forall₂ (entrySameOrExcluded f p) m₁ m₂ →
    dumpEntriesT f p m₁ = dumpEntriesT f p m₂ := by
  intro m₁ m₂ h
  induction h with
  | nil => rfl
  | cons hhd htl ih =>
    rename_i x y l₁ l₂
    obtain ⟨k, v⟩ := x
    obtain ⟨k', v'⟩ := y
    obtain ⟨hk, hnode⟩ := hhd
    simp at hk
    subst hk
    simp only [dumpEntriesT]
    by_cases hf : f (p ++ [k]) = true
    · have hv : v = v' := by
        rcases hnode with h | h
        · exact h
        · rw [hf] at h; cases h
      subst hv
      rw [ih]
    · rw [if_neg hf, if_neg hf, ih]

/-- C7 counterexample: the claim as frozen says the include predicate is
invoked with root-relative paths.  Serializing the directory `{a}` rooted
at `R` invokes the predicate on the root-prefixed path `R/a`, not on the
root-relative path `a` (the git dirty-copy filter relies on this,
stripping the root prefix itself). -/
theorem claim_C7_counterexample :
    dumpCalls (fun _ => true) (["R"])
      (.directory [("a", .regular "" false)]) = [["R", "a"]] ∧
    dumpCalls (fun _ => true) ([] : List String)
      (.directory [("a", .regular "" false)]) = [["a"]] ∧
    (["R", "a"] : List String) ≠ ["a"] :=
  ⟨by simp [dumpCalls, dumpT, dumpEntriesT, toUnhacked, stdMapInsert,
      Except.map],
    by simp [dumpCalls, dumpT, dumpEntriesT, toUnhacked, stdMapInsert,
      Except.map],
    by decide⟩

/-- C7 (amended): the include predicate is invoked with the entry's path
prefixed by the encoding root (`root ++ relative path` — filesystem
absolute whenever the root is), and entries for which the predicate
returns false are omitted from both the encoding and the recursive
descent (their subtree cannot influence the output). -/
theorem claim_C7_amended_filter_paths :
    (∀ (f : List String → Bool) (base : List String) (t : FSNode),
      dumpT f base t =
        ((dumpT (fun s => f (base ++ s)) [] t).1,
          ((dumpT (fun s => f (base ++ s)) [] t).2).map
            (fun s => base ++ s))) ∧
    (∀ (f : List String → Bool) (p : List String) (n : String)
      (node node' : FSNode) (l : List (String × FSNode)),
      f (p ++ [n]) = false →
      dumpT f p (.directory ((n, node) :: l)) =
        dumpT f p (.directory ((n, node') :: l))) := by
  constructor
  · intro f base t
    have h := (dumpT_rebase (sizeOf t)).1 t f base [] le_rfl
    simpa using h
  · intro f p n node node' l hf
    have hrel : List.Forall₂ (entrySameOrExcluded f p)
        ((n, node) :: l) ((n, node') :: l) :=
      List.Forall₂.cons ⟨rfl, .inr hf⟩
        (List.forall₂_same.mpr (fun x _ => ⟨rfl, .inl rfl⟩))
    have hkey : ∀ a b, entrySameOrExcluded f p a b → a.1 = b.1 :=
      fun a b h => h.1
    have := dumpEntriesT_congr_excluded f p
      (toUnhacked_forall₂ hkey hrel)
    simp only [dumpT]
    rw [this]

/-- Witness for C7 (amended) at concrete inputs. -/
theorem claim_C7_witness :
    ((fun s => decide (s = (["R", "a"] : List String))) ([] ++ [("a" : String)]) = false) ∧
    dumpT (fun s => decide (s = (["R", "a"] : List String))) []
      (.directory [("a", .regular "" false)]) =
      dumpT (fun s => decide (s = (["R", "a"] : List String))) []
        (.directory [("a", .symlink "t")]) :=
  ⟨by decide,
    claim_C7_amended_filter_paths.2
      (fun s => decide (s = (["R", "a"] : List String))) [] "a"
      (.regular "" false) (.symlink "t") [] (by decide)⟩

/-! ### Determinism of the encoder (order lemmas and the collection map) -/

theorem charLt_asymm {a b : Char} (h1 : charLt a b = true)
    (h2 : charLt b a = true) : False := by
  simp [charLt] at h1 h2
  exact absurd h1 (lt_asymm h2)

theorem charLt_eq {a b : Char} (h1 : charLt a b = false)
    (h2 : charLt b a = false) : a = b := by
  have h1' : ¬ a < b := by simpa [charLt] using h1
  have h2' : ¬ b < a := by simpa [charLt] using h2
  exact le_antisymm (not_lt.mp h2') (not_lt.mp h1')

theorem charLt_trans {a b c : Char} (h1 : charLt a b = true)
    (h2 : charLt b c = true) : charLt a c = true := by
  simp [charLt] at h1 h2 ⊢
  exact lt_trans h1 h2

theorem strLtL_asymm : ∀ {x y : List Char},
    strLtL x y = true → strLtL y x = true → False := by
  intro x
  induction x with
  | nil =>
    intro y h1 h2
    cases y <;> simp [strLtL] at h1 h2
  | cons a as ih =>
    intro y h1 h2
    cases y with
    | nil => simp [strLtL] at h1
    | cons b bs =>
      simp only [strLtL] at h1 h2
      by_cases hab : charLt a b = true
      · rw [if_pos hab] at h1
        by_cases hba : charLt b a = true
        · exact charLt_asymm hab hba
        · rw [if_neg hba, if_pos hab] at h2
          cases h2
      · rw [if_neg hab] at h1 h2
        by_cases hba : charLt b a = true
        · rw [if_pos hba] at h1
          cases h1
        · rw [if_neg hba] at h1
          rw [if_neg hba] at h2
          exact ih h1 h2

theorem strLtL_eq : ∀ {x y : List Char},
    strLtL x y = false → strLtL y x = false → x = y := by
  intro x
  induction x with
  | nil =>
    intro y h1 _
    cases y with
    | nil => rfl
    | cons b bs => simp [strLtL] at h1
  | cons a as ih =>
    intro y h1 h2
    cases y with
    | nil => simp [strLtL] at h2
    | cons b bs =>
      simp only [strLtL] at h1 h2
      by_cases hab : charLt a b = true
      · rw [if_pos hab] at h1
        cases h1
      · by_cases hba : charLt b a = true
        · rw [if_pos hba] at h2
          cases h2
        · rw [if_neg hab, if_neg hba] at h1
          have hc := charLt_eq (Bool.eq_false_iff.mpr hab)
            (Bool.eq_false_iff.mpr hba)
          rw [if_neg hba, if_neg hab] at h2
          rw [hc, ih h1 h2]

theorem strLtL_trans : ∀ {x y z : List Char},
    strLtL x y = true → strLtL y z = true → strLtL x z = true := by
  intro x
  induction x with
  | nil =>
    intro y z h1 h2
    cases y with
    | nil => cases z <;> simp [strLtL] at h1 ⊢
    | cons b bs =>
      cases z with
      | nil => simp [strLtL] at h2
      | cons c cs => simp [strLtL]
  | cons a as ih =>
    intro y z h1 h2
    cases y with
    | nil => simp [strLtL] at h1
    | cons b bs =>
      cases z with
      | nil => simp [strLtL] at h2
      | cons c cs =>
        simp only [strLtL] at h1 h2 ⊢
        by_cases hab : charLt a b = true
        · rw [if_pos hab] at h1
          by_cases hbc : charLt b c = true
          · rw [if_pos (charLt_trans hab hbc)]
          · by_cases hcb : charLt c b = true
            · rw [if_neg hbc, if_pos hcb] at h2
              cases h2
            · rw [if_neg hbc, if_neg hcb] at h2
              have := charLt_eq (Bool.eq_false_iff.mpr hbc)
                (Bool.eq_false_iff.mpr hcb)
              subst this
              rw [if_pos hab]
        · rw [if_neg hab] at h1
          by_cases hba : charLt b a = true
          · rw [if_pos hba] at h1
            cases h1
          · rw [if_neg hba] at h1
            have hEq := charLt_eq (Bool.eq_false_iff.mpr hab)
              (Bool.eq_false_iff.mpr hba)
            subst hEq
            by_cases hbc : charLt a c = true
            · rw [if_pos hbc]
            · rw [if_neg hbc] at h2 ⊢
              by_cases hcb : charLt c a = true
              · rw [if_pos hcb] at h2
                cases h2
              · rw [if_neg hcb] at h2 ⊢
                exact ih h1 h2

theorem strLt_asymm {a b : String} (h1 : strLt a b = true)
    (h2 : strLt b a = true) : False := strLtL_asymm h1 h2

theorem strLt_eq {a b : String} (h1 : strLt a b = false)
    (h2 : strLt b a = false) : a = b := by
  cases a with
  | mk da =>
    cases b with
    | mk db => exact congrArg String.mk (strLtL_eq h1 h2)

theorem strLt_trans {a b c : String} (h1 : strLt a b = true)
    (h2 : strLt b c = true) : strLt a c = true := strLtL_trans h1 h2

theorem mem_stdMapInsert : ∀ {m : List (String × FSNode)} {k : String}
    {v : FSNode} {x : String × FSNode}, x ∈ stdMapInsert m k v →
    x = (k, v) ∨ x ∈ m := by
  intro m
  induction m with
  | nil =>
    intro k v x hx
    simp [stdMapInsert] at hx
    exact .inl hx
  | cons a rest ih =>
    intro k v x hx
    obtain ⟨k', v'⟩ := a
    simp only [stdMapInsert] at hx
    split_ifs at hx with h1 h2
    · rcases List.mem_cons.mp hx with h | h
      · exact .inl h
      · exact .inr h
    · exact .inr hx
    · rcases List.mem_cons.mp hx with h | h
      · exact .inr (List.mem_cons.mpr (.inl h))
      · rcases ih h with h' | h'
        · exact .inl h'
        · exact .inr (List.mem_cons.mpr (.inr h'))

theorem stdMapInsert_perm : ∀ {m : List (String × FSNode)} {k : String}
    {v : FSNode}, k ∉ m.map Prod.fst →
    (stdMapInsert m k v).Perm ((k, v) :: m) := by
  intro m
  induction m with
  | nil => intro k v _; simp [stdMapInsert]
  | cons a rest ih =>
    intro k v hk
    obtain ⟨k', v'⟩ := a
    simp only [List.map_cons, List.mem_cons] at hk
    push_neg at hk
    obtain ⟨hne, hnotin⟩ := hk
    simp only [stdMapInsert]
    split_ifs with h1
    · exact List.Perm.refl _
    · refine ((ih hnotin).cons (k', v')).trans ?_
      exact List.Perm.swap _ _ _

theorem toUnhacked_perm {l : List (String × FSNode)}
    (hnd : (l.map Prod.fst).Nodup) : (toUnhacked l).Perm l := by
  suffices hgen : ∀ (l acc : List (String × FSNode)),
      (l.map Prod.fst).Nodup →
      (∀ k, k ∈ acc.map Prod.fst → k ∉ l.map Prod.fst) →
      (l.foldl (fun m p => stdMapInsert m p.1 p.2) acc).Perm (acc ++ l) by
    simpa [toUnhacked] using hgen l [] hnd (by simp)
  intro l
  induction l with
  | nil => intro acc _ _; simp
  | cons a rest ih =>
    intro acc hnd hdisj
    obtain ⟨k, v⟩ := a
    simp only [List.map_cons, List.nodup_cons] at hnd
    obtain ⟨hknotin, hndrest⟩ := hnd
    have hknacc : k ∉ acc.map Prod.fst := by
      intro hx
      exact hdisj k hx (by simp)
    have hdisj' : ∀ k', k' ∈ (stdMapInsert acc k v).map Prod.fst →
        k' ∉ rest.map Prod.fst := by
      intro k' hk'
      rcases List.mem_map.mp hk' with ⟨x, hx, hkx⟩
      rcases mem_stdMapInsert hx with h | h
      · subst h
        subst hkx
        exact hknotin
      · have hmem : k' ∈ acc.map Prod.fst := by
          subst hkx
          exact List.mem_map_of_mem _ h
        have hnot := hdisj k' hmem
        simp only [List.map_cons, List.mem_cons] at hnot
        push_neg at hnot
        exact hnot.2
    simp only [List.foldl_cons]
    refine (ih (stdMapInsert acc k v) hndrest hdisj').trans ?_
    refine ((stdMapInsert_perm hknacc).append_right rest).trans ?_
    exact List.perm_middle.symm

/-- Strict name order on entries (the `std::map` key order). -/
def entryLt : (String × FSNode) → (String × FSNode) → Prop :=
  fun a b => strLt a.1 b.1 = true

theorem stdMapInsert_sorted : ∀ {m : List (String × FSNode)} {k : String}
    {v : FSNode}, m.Sorted entryLt → (stdMapInsert m k v).Sorted entryLt := by
  intro m
  induction m with
  | nil => intro k v _; simp [stdMapInsert, entryLt]
  | cons a rest ih =>
    intro k v hs
    obtain ⟨k', v'⟩ := a
    rw [List.sorted_cons] at hs
    obtain ⟨hhead, hrest⟩ := hs
    simp only [stdMapInsert]
    split_ifs with h1 h2
    · rw [List.sorted_cons]
      refine ⟨?_, List.sorted_cons.mpr ⟨hhead, hrest⟩⟩
      intro b hb
      rcases List.mem_cons.mp hb with h | h
      · subst h
        exact h1
      · exact strLt_trans h1 (hhead b h)
    · exact List.sorted_cons.mpr ⟨hhead, hrest⟩
    · rw [List.sorted_cons]
      refine ⟨?_, ih hrest⟩
      intro b hb
      rcases mem_stdMapInsert hb with h | h
      · subst h
        have hk'k : strLt k' k = true := by
          cases hlt : strLt k' k
          · exact absurd (strLt_eq (Bool.eq_false_iff.mpr h1) hlt) h2
          · rfl
        exact hk'k
      · exact hhead b h

theorem toUnhacked_sorted (l : List (String × FSNode)) :
    (toUnhacked l).Sorted entryLt := by
  suffices hgen : ∀ (l acc : List (String × FSNode)),
      acc.Sorted entryLt →
      (l.foldl (fun m p => stdMapInsert m p.1 p.2) acc).Sorted entryLt by
    exact hgen l [] (by simp)
  intro l
  induction l with
  | nil => intro acc h; simpa using h
  | cons a rest ih =>
    intro acc h
    simp only [List.foldl_cons]
    exact ih _ (stdMapInsert_sorted h)

theorem toUnhacked_eq_of_perm {l₁ l₂ : List (String × FSNode)}
    (hnd : (l₁.map Prod.fst).Nodup) (hp : l₁.Perm l₂) :
    toUnhacked l₁ = toUnhacked l₂ := by
  have hnd₂ : (l₂.map Prod.fst).Nodup := ((hp.map Prod.fst).nodup_iff).mp hnd
  haveI : IsAntisymm (String × FSNode) entryLt :=
    ⟨fun a b h1 h2 => absurd h1 fun hh => strLt_asymm hh h2⟩
  exact List.eq_of_perm_of_sorted
    (((toUnhacked_perm hnd).trans hp).trans (toUnhacked_perm hnd₂).symm)
    (toUnhacked_sorted l₁) (toUnhacked_sorted l₂)

/-- The core determinism argument, by strong induction on the tree size:
serializing equal contents through any two directory-iteration orders
produces identical token streams and identical predicate calls. -/
theorem dumpT_treeEquiv : ∀ n : Nat,
    (∀ (t₁ t₂ : FSNode) (f : List String → Bool) (p : List String),
      sizeOf t₁ ≤ n → WFNames t₁ → TreeEquiv t₁ t₂ →
      dumpT f p t₁ = dumpT f p t₂) ∧
    (∀ (m₁ m₂ : List (String × FSNode)) (f : List String → Bool)
      (p : List String),
      sizeOf m₁ ≤ n → (∀ x ∈ m₁, WFNames x.2) →
      List.Forall₂ (fun a b => a.1 = b.1 ∧ TreeEquiv a.2 b.2) m₁ m₂ →
      dumpEntriesT f p m₁ = dumpEntriesT f p m₂) := by
  intro n
  induction n with
  | zero =>
    constructor
    · intro t₁ t₂ f p hle _ _
      have := FSNode.one_le_sizeOf t₁
      omega
    · intro m₁ m₂ f p hle _ _
      have := entries_one_le_sizeOf m₁
      omega
  | succ n ih =>
    obtain ⟨ihT, ihE⟩ := ih
    constructor
    · intro t₁ t₂ f p hle hwf heq
      cases heq with
      | regular s x => rfl
      | symlink t => rfl
      | misc => rfl
      | directory hp hk hv =>
        rename_i l₁ l₂ mid
        cases hwf with
        | directory hnd hsub =>
          have hmid : toUnhacked l₁ = toUnhacked mid :=
            toUnhacked_eq_of_perm hnd hp
          have hrel : List.Forall₂
              (fun a b => a.1 = b.1 ∧ TreeEquiv a.2 b.2)
              (toUnhacked mid) (toUnhacked l₂) :=
            toUnhacked_forall₂ (fun a b h => h.1) (forall₂_of_maps hk hv)
          have hszmid : sizeOf (toUnhacked mid) ≤ n := by
            have h1 : sizeOf (toUnhacked mid) = sizeOf (toUnhacked l₁) := by
              rw [hmid]
            have h2 := sizeOf_toUnhacked l₁
            simp at hle
            omega
          have hndmid : (mid.map Prod.fst).Nodup :=
            ((hp.map Prod.fst).nodup_iff).mp hnd
          have hwfmid : ∀ x ∈ toUnhacked mid, WFNames x.2 := by
            intro x hx
            exact hsub x
              (hp.mem_iff.mpr ((toUnhacked_perm hndmid).mem_iff.mp hx))
          have hents := ihE (toUnhacked mid) (toUnhacked l₂) f p hszmid
            hwfmid hrel
          simp only [dumpT]
          rw [hmid, hents]
    · intro m₁ m₂ f p hle hwfm hrel
      cases hrel with
      | nil => rfl
      | cons hhd htl =>
        rename_i a b as bs
        obtain ⟨k, v⟩ := a
        obtain ⟨k', v'⟩ := b
        obtain ⟨hkeq, hTE⟩ := hhd
        have hk2 : k = k' := hkeq
        subst hk2
        have hszv : sizeOf v ≤ n := by
          simp at hle
          omega
        have hszas : sizeOf as ≤ n := by
          simp at hle
          omega
        have hwfv : WFNames v := hwfm (k, v) (by simp)
        have hwfas : ∀ x ∈ as, WFNames x.2 := fun x hx =>
          hwfm x (by simp [hx])
        have hnode := ihT v v' f (p ++ [k]) hszv hwfv hTE
        have hrest := ihE as bs f p hszas hwfas htl
        simp only [dumpEntriesT]
        rw [hnode, hrest]

/-- C8: serializing the same tree contents twice yields byte-identical
output (and identical predicate calls) regardless of the order in which
the underlying filesystem iterates each directory, because every
directory's raw listing is collected into a name-ordered map before any
entry is emitted. -/
theorem claim_C8_encoder_determinism (f : List String → Bool)
    (p : List String) (t₁ t₂ : FSNode) (hwf : WFNames t₁)
    (heq : TreeEquiv t₁ t₂) :
    dumpPath f p t₁ = dumpPath f p t₂ ∧
    dumpCalls f p t₁ = dumpCalls f p t₂ := by
  have h := (dumpT_treeEquiv (sizeOf t₁)).1 t₁ t₂ f p le_rfl hwf heq
  unfold dumpPath dumpCalls
  rw [h]
  exact ⟨rfl, rfl⟩

/-- Witness for C8 at a concrete pair of listings of the same directory in
opposite orders. -/
theorem claim_C8_witness :
    WFNames (.directory [("a", .regular "x" true), ("b", .symlink "t")]) ∧
    TreeEquiv (.directory [("a", .regular "x" true), ("b", .symlink "t")])
      (.directory [("b", .symlink "t"), ("a", .regular "x" true)]) ∧
    dumpPath (fun _ => true) []
        (.directory [("a", .regular "x" true), ("b", .symlink "t")]) =
      dumpPath (fun _ => true) []
        (.directory [("b", .symlink "t"), ("a", .regular "x" true)]) := by
  have hwf : WFNames
      (.directory [("a", .regular "x" true), ("b", .symlink "t")]) := by
    refine WFNames.directory (by decide) ?_
    intro x hx
    rcases List.mem_cons.mp hx with h | h
    · subst h
      exact WFNames.regular "x" true
    · rcases List.mem_singleton.mp h with h'
      subst h'
      exact WFNames.symlink "t"
  have heq : TreeEquiv
      (.directory [("a", .regular "x" true), ("b", .symlink "t")])
      (.directory [("b", .symlink "t"), ("a", .regular "x" true)]) := by
    refine @TreeEquiv.directory _ _
      [("b", .symlink "t"), ("a", .regular "x" true)]
      (List.Perm.swap _ _ _) rfl ?_
    exact List.Forall₂.cons (TreeEquiv.symlink "t")
      (List.Forall₂.cons (TreeEquiv.regular "x" true) List.Forall₂.nil)
  exact ⟨hwf, heq,
    (claim_C8_encoder_determinism (fun _ => true) [] _ _ hwf heq).1⟩

end NixFetch
